import Mathlib

/-!
Verification development for the request-lifecycle engine of the `brainy`
conversational assistant (sources: `bot.py`, `together_client.py`).

The Python sources are shallowly embedded: pure text manipulation is
translated to functions on `List Char`, the rate-limit governor and the
retry decorator become explicit state-passing functions over `ℚ`-valued
clocks, the debounce scheduler becomes a step function on an explicit
session state, and `heapq`'s sift-down (used by `asyncio.PriorityQueue`)
is embedded together with Python's tuple-comparison semantics (comparison
of two distinct `Request` payloads raises `TypeError`, modelled as
`Except.error`).
-/

namespace Brainy

/-! ## Outbound call governor (`together_client.py`)

`_parse_rate_headers`, `_respect_headers`, `_chat_once`, `chat_with_fallback`.
Headers are modelled as already-parsed optional numeric values: an absent
field covers both a missing header and an unparsable one (the Python helper
`_f` returns the default in both cases).  Clock values are rationals. -/

/-- Rate-limit headers of one HTTP response: `x-ratelimit-limit`,
`x-ratelimit-remaining`, `x-ratelimit-reset`, `retry-after`. -/
structure RateHeaders where
  limit : Option ℚ
  remaining : Option ℤ
  reset : Option ℚ
  retryAfter : Option ℚ

/-- Result of `_parse_rate_headers`: defaults are `0.05` for `limit_rps`
and `0` for `remaining`; `reset_s` and `retry_after` default to `None`. -/
structure RateMeta where
  limit_rps : ℚ
  remaining : ℤ
  reset_s : Option ℚ
  retry_after : Option ℚ

/-- `_parse_rate_headers` from `together_client.py`. -/
def _parse_rate_headers (h : RateHeaders) : RateMeta :=
  { limit_rps := h.limit.getD (5/100)
  , remaining := h.remaining.getD 0
  , reset_s := h.reset
  , retry_after := h.retryAfter }

/-- The two interchangeable free backends: `LLAMA_FREE = TOGETHER_MODEL`
(`Apriel-1.6`) and `DEEPSEEK_FREE = TOGETHER_DEEPSEEK` (`Apriel-1.5`). -/
inductive Model where
  | apriel16
  | apriel15
deriving DecidableEq, Repr

/-- `_other_free`: maps each of the two configured backends to the other
one (the Python function dispatches on substrings of the model name). -/
def _other_free : Model → Model
  | .apriel16 => .apriel15
  | .apriel15 => .apriel16

/-- Shared governor state: the event-loop clock and `_model_next_ok`
(a dict, so a missing backend is `none`). -/
structure GovState where
  time : ℚ
  nextOk : Model → Option ℚ

/-- `_model_next_ok.get(model, 0.0)` (used by `_get_next_ok` and
`_wait_if_needed`). -/
def _get_next_ok (s : GovState) (m : Model) : ℚ :=
  (s.nextOk m).getD 0

/-- Point update of the `_model_next_ok` map. -/
def setNextOk (s : GovState) (m : Model) (v : ℚ) : GovState :=
  { s with nextOk := fun m' => if m' = m then some v else s.nextOk m' }

/-- `_respect_headers(model, headers, pace_after_success)`: recomputes
`_model_next_ok[model]` from the parsed rate headers.  `limit_rps or 0.05`
is Python truthiness: a parsed limit of `0` falls back to the default. -/
def _respect_headers (m : Model) (h : RateHeaders) (pace : Bool)
    (s : GovState) : GovState :=
  let meta := _parse_rate_headers h
  let limit_rps : ℚ := if meta.limit_rps = 0 then 5/100 else meta.limit_rps
  let now := s.time
  let next_ok := (s.nextOk m).getD now
  let delay : ℚ :=
    if meta.remaining ≤ 0 then
      let base := meta.reset_s.getD (if 0 < limit_rps then 1 / limit_rps else 2)
      max ((⌈base⌉ : ℚ) + 1/2) (meta.retry_after.getD 0)
    else if pace ∧ 0 < limit_rps then 1 / limit_rps
    else 0
  if 0 < delay then setNextOk s m (max next_ok (now + delay)) else s

/-- One backend response as seen by `_chat_once`: HTTP 200, 429, 503,
a connection/timeout failure (no response, no headers), or another HTTP
error status. -/
inductive Response where
  | ok (h : RateHeaders) (body : ℕ)
  | throttled (h : RateHeaders)
  | unavailable (h : RateHeaders)
  | netErr
  | httpErr (h : RateHeaders) (code : ℕ)

/-- The exceptions `_chat_once` can raise: `RateLimitError`,
`ServiceUnavailableError`, an httpx connection/timeout error, or
`raise_for_status` on another status code. -/
inductive CallError where
  | rateLimit
  | serviceUnavailable
  | net
  | http (code : ℕ)
deriving DecidableEq, Repr

/-- `_wait_if_needed(model)`: sleep until `_model_next_ok.get(model, 0.0)`. -/
def _wait_if_needed (m : Model) (s : GovState) : GovState :=
  { s with time := max s.time (_get_next_ok s m) }

/-- `_chat_once(model=...)` against a fixed per-backend behaviour `beh`.
Returns the result, the new state, and the list of backends called.
For a 200 response `_respect_headers` runs once with pacing; for 429/503
it runs twice (once from the unconditional call, once from the error
branch), both without pacing; for other HTTP errors once without pacing;
a connection failure never reaches the header handling. -/
def _chat_once (beh : Model → Response) (m : Model) (s : GovState) :
    Except CallError ℕ × GovState × List Model :=
  let s1 := _wait_if_needed m s
  match beh m with
  | .ok h v => (.ok v, _respect_headers m h true s1, [m])
  | .throttled h =>
      (.error .rateLimit,
       _respect_headers m h false (_respect_headers m h false s1), [m])
  | .unavailable h =>
      (.error .serviceUnavailable,
       _respect_headers m h false (_respect_headers m h false s1), [m])
  | .netErr => (.error .net, s1, [m])
  | .httpErr h code => (.error (.http code), _respect_headers m h false s1, [m])

/-- Does `chat_with_fallback`'s `except` clause catch this error?
(`RateLimitError`, `ServiceUnavailableError`, and the four httpx
connection/timeout errors; other HTTP errors propagate.) -/
def fallbackCatches : CallError → Bool
  | .rateLimit => true
  | .serviceUnavailable => true
  | .net => true
  | .http _ => false

/-- `chat_with_fallback` with the default `immediate_on_429=True`:
call the primary once; on a caught error mark the primary busy for 3 s
and call the single alternate backend once, propagating its outcome. -/
def chat_with_fallback (beh : Model → Response) (primary : Model)
    (s : GovState) : Except CallError ℕ × GovState × List Model :=
  let secondary := _other_free primary
  match _chat_once beh primary s with
  | (.ok v, s1, tr) => (.ok v, s1, tr)
  | (.error e, s1, tr) =>
      if fallbackCatches e then
        let s2 := setNextOk s1 primary
          (max (_get_next_ok s1 primary) (s1.time + 3))
        let (r, s3, tr2) := _chat_once beh secondary s2
        (r, s3, tr ++ tr2)
      else (.error e, s1, tr)

/-! ## Retry decorator (`retry_on_server_error`, `together_client.py`) -/

/-- The retryable exception classes caught by the decorator. -/
inductive TErr where
  | rateLimit
  | serviceUnavailable
  | apiError
  | readTimeout
  | connectTimeout
  | connectError
deriving DecidableEq, Repr

/-- Shared `_rate_limit_state` plus the event-loop clock. -/
structure RetryState where
  time : ℚ
  cooldownUntil : ℚ

/-- Outcome of a single attempt of the wrapped coroutine: `none` is
success, `some e` raises the retryable error `e`. -/
def AttemptOutcome := ℕ → Option TErr

/-- The retry loop of `retry_on_server_error(retries=4, delay=2,
backoff=2)` from attempt `attempt` on, with current `_delay`.
Returns the propagated error (`some e`) or success (`none`), the final
state, and the list of sleep durations, in order. -/
def retryLoop (f : AttemptOutcome) : ℕ → ℕ → ℚ → RetryState →
    Option TErr × RetryState × List ℚ
  | _, 0, _, s => (none, s, [])    -- `range(4)` exhausted (unreachable)
  | attempt, fuel + 1, d, s =>
    match f attempt with
    | none => (none, s, [])
    | some e =>
        if attempt = 3 then (some e, s, [])
        else
          let wait0 : ℚ := d
          let wait1 : ℚ := if attempt = 2 then 60 else wait0
          let waitT : ℚ := if e = .rateLimit then 60 else wait1
          let s1 : RetryState :=
            if e = .rateLimit then { s with cooldownUntil := s.time + 60 } else s
          let s2 : RetryState := { s1 with time := s1.time + waitT }
          let d' : ℚ := if attempt < 2 then d * 2 else d
          let (r, s3, ws) := retryLoop f (attempt + 1) fuel d' s2
          (r, s3, waitT :: ws)

/-- The decorator wrapper: wait out any active shared cooldown, then run
the retry loop.  Also returns the initial cooldown wait. -/
def retryRun (f : AttemptOutcome) (s : RetryState) :
    Option TErr × RetryState × ℚ × List ℚ :=
  let wait := s.cooldownUntil - s.time
  let s0 := if 0 < wait then { s with time := s.time + wait } else s
  let (r, s1, ws) := retryLoop f 0 4 2 s0
  (r, s1, (if 0 < wait then wait else 0), ws)

/-! ## Dispatch queue (`asyncio.PriorityQueue` = `heapq`, `bot.py`)

`process_buffered_messages` enqueues the bare pair `(priority, request)`.
Python compares such tuples position by position; when the priorities are
equal it falls through to comparing the `Request` namedtuples, whose first
field is a `telegram.Update`.  Distinct updates are unequal (`__eq__` is
by `update_id`) and define no `__lt__`, so the comparison raises
`TypeError`, modelled as `Except.error`. -/

/-- A `(priority, request)` pair as placed on the dispatch queue.
`reqId` stands for the identity of the `Request`'s `Update`. -/
structure Env where
  pri : ℕ
  reqId : ℕ
deriving DecidableEq, Repr

/-- Python `<` on two `(priority, request)` tuples. -/
def envLt (a b : Env) : Except Unit Bool :=
  if a.pri = b.pri then
    if a.reqId = b.reqId then .ok false
    else .error ()       -- TypeError: '<' not supported between Updates
  else .ok (a.pri < b.pri)

/-- `heapq._siftdown(heap, 0, pos)` with `newitem = heap[pos]`.
The fuel bounds the parent chain; `heappush` passes enough. -/
def siftdownGo (newitem : Env) : ℕ → List Env → ℕ → Except Unit (List Env)
  | 0, heap, pos => .ok (heap.set pos newitem)
  | fuel + 1, heap, pos =>
    if pos > 0 then
      let parentpos := (pos - 1) / 2
      match heap.get? parentpos with
      | none => .error ()
      | some parent =>
        match envLt newitem parent with
        | .error e => .error e
        | .ok true => siftdownGo newitem fuel (heap.set pos parent) parentpos
        | .ok false => .ok (heap.set pos newitem)
    else .ok (heap.set pos newitem)

/-- `heapq.heappush` as used by `asyncio.PriorityQueue.put`. -/
def heappush (heap : List Env) (item : Env) : Except Unit (List Env) :=
  let h := heap ++ [item]
  siftdownGo item h.length h (h.length - 1)

/-- The static mode → priority map of `process_buffered_messages`
(unknown modes default to 3). -/
def modePriority (mode : String) : ℕ :=
  if mode = "fast_reply" then 1
  else if mode = "web" then 2
  else if mode = "deepseek_r1" then 3
  else if mode = "deep_search" then 4
  else if mode = "deep_research" then 5
  else 3

/-! ## Markdown-safe splitting (`send_long_message`, `bot.py`)

Python strings are embedded as `List Char`.  The three marker-counting
regexes are non-overlapping scans with a one-character negative
lookbehind for a backslash. -/

/-- Python strings as character lists. -/
abbrev Str := List Char

/-- The backtick character. -/
def btk : Char := Char.ofNat 96

/-- A sentinel previous character for position 0 (not a backslash). -/
def sentinel : Char := Char.ofNat 0

/-- Scan for `_TRIPLE_RE` (three backticks, unescaped): number of
non-overlapping matches, given the previous character. -/
def countTripleGo : Char → Str → ℕ
  | _, [] => 0
  | _, [_] => 0
  | _, [_, _] => 0
  | prev, c :: b :: d :: rest2 =>
    if prev ≠ '\\' ∧ c = btk ∧ b = btk ∧ d = btk then
      1 + countTripleGo btk rest2
    else countTripleGo c (b :: d :: rest2)

/-- `len(_TRIPLE_RE.findall(s))`. -/
def count_triple (s : Str) : ℕ := countTripleGo sentinel s

/-- Scan for `_BACKTICK_RE` (one unescaped backtick). -/
def countTickGo : Char → Str → ℕ
  | _, [] => 0
  | prev, c :: rest =>
    (if prev ≠ '\\' ∧ c = btk then 1 else 0) + countTickGo c rest

/-- `len(_BACKTICK_RE.findall(s))`. -/
def count_tick (s : Str) : ℕ := countTickGo sentinel s

/-- Scan for `_DBL_STAR_RE` (two stars, unescaped). -/
def countDblGo : Char → Str → ℕ
  | _, [] => 0
  | _, [_] => 0
  | prev, c :: b :: rest2 =>
    if prev ≠ '\\' ∧ c = '*' ∧ b = '*' then 1 + countDblGo '*' rest2
    else countDblGo c (b :: rest2)

/-- `len(_DBL_STAR_RE.findall(s))`. -/
def count_dbl (s : Str) : ℕ := countDblGo sentinel s

/-- Helper for `str.rfind(ch, 0, e)`: highest index `< e` holding `ch`,
as a Python-style `-1`-for-missing integer. -/
def pyRfindCharGo (ch : Char) : ℕ → ℤ → Str → ℕ → ℤ
  | _, best, [], _ => best
  | i, best, c :: rest, e =>
    if i < e then
      pyRfindCharGo ch (i + 1) (if c = ch then (i : ℤ) else best) rest e
    else best

/-- `s.rfind(ch, 0, e)`. -/
def pyRfindChar (ch : Char) (s : Str) (e : ℕ) : ℤ :=
  pyRfindCharGo ch 0 (-1) s e

/-- `s.rfind(ch)` over the whole string. -/
def pyRfindCharAll (ch : Char) (s : Str) : ℤ := pyRfindChar ch s s.length

/-- Helper for `s.rfind("**")`. -/
def pyRfindDblGo : ℕ → ℤ → Str → ℤ
  | _, best, [] => best
  | _, best, [_] => best
  | i, best, a :: b :: rest =>
    pyRfindDblGo (i + 1) (if a = '*' ∧ b = '*' then (i : ℤ) else best) (b :: rest)

/-- `s.rfind("**")`. -/
def pyRfindDbl (s : Str) : ℤ := pyRfindDblGo 0 (-1) s

/-- `s.endswith(c)` for one character. -/
def endsWith1 (c : Char) (s : Str) : Bool := s.reverse.head? = some c

/-- `s.endswith(ab)` for two characters `a`, `b` (in order). -/
def endsWith2 (a b : Char) (s : Str) : Bool :=
  match s.reverse with
  | y :: x :: _ => y = b ∧ x = a
  | _ => false

/-- `_is_safe_cut(s, idx)` from `send_long_message`. -/
def _is_safe_cut (s : Str) (idx : ℕ) : Bool :=
  if idx = 0 ∨ s.length ≤ idx then true
  else if s.get? (idx - 1) = some '\\' then false
  else if s.get? (idx - 1) = some '*' ∧ s.get? idx = some '*' then false
  else if s.get? (idx - 1) = some btk ∧ s.get? idx = some btk then false
  else if count_triple (s.take idx) % 2 = 1 then false
  else if count_tick (s.take idx) % 2 = 1 then false
  else if count_dbl (s.take idx) % 2 = 1 then false
  else true

/-- The `while probe > 0 and not _is_safe_cut(...)` walk of
`_find_safe_cut`: first safe index walking down, else 0. -/
def probeDown (s : Str) : ℕ → ℕ
  | 0 => 0
  | n + 1 => if _is_safe_cut s (n + 1) then n + 1 else probeDown s n

/-- `_find_safe_cut(s, limit)`. -/
def _find_safe_cut (s : Str) (limit : ℕ) : ℕ :=
  let e := min limit s.length
  let c1 := pyRfindChar '\n' s e
  let c2 := pyRfindChar ' ' s e
  let cut : ℤ := if c1 = -1 ∧ c2 = -1 then (e : ℤ) else max c1 c2
  let p := probeDown s cut.toNat
  if 0 < p then p else e

/-- `_avoid_digit_split(left, right)`: moves a digit run that would be
cut in half back to the right part. -/
def _avoid_digit_split (left right : Str) : Str × Str :=
  match left.getLast?, right.head? with
  | some lc, some rc =>
    if lc.isDigit ∧ rc.isDigit then
      let rev := left.reverse
      let movedRev := rev.takeWhile (fun c => c.isDigit)
      let keptRev := rev.dropWhile (fun c => c.isDigit)
      (keptRev.reverse, movedRev.reverse ++ right)
    else (left, right)
  | _, _ => (left, right)

/-- `_fix_boundary_inside_link(left, right)`: relocates a cut that fell
inside a `[label](url)` construct. -/
def _fix_boundary_inside_link (left right : Str) : Str × Str :=
  let lb := pyRfindCharAll '[' left
  let rb := pyRfindCharAll ']' left
  if rb < lb then
    (left.take lb.toNat, left.drop lb.toNat ++ right)
  else
    let lp := pyRfindCharAll '(' left
    let rp := pyRfindCharAll ')' left
    if rb ≠ -1 ∧ rb < lp ∧ rp < lp then
      (left.take rb.toNat, left.drop rb.toNat ++ right)
    else (left, right)

/-- Step 1 of `_neutralize_unbalanced`: close an odd fence count by
appending `"\n```"`. -/
def closeTriple (chunk : Str) : Str :=
  if count_triple chunk % 2 = 1 then chunk ++ '\n' :: [btk, btk, btk] else chunk

/-- Step 2: close an odd backtick count by appending a backtick. -/
def closeTick (chunk : Str) : Str :=
  if count_tick chunk % 2 = 1 then chunk ++ [btk] else chunk

/-- Step 3: if the double-star count is odd, escape the last `"**"` in
place (unless it is itself escaped). -/
def escapeStars (chunk : Str) : Str :=
  if count_dbl chunk % 2 = 1 then
    let last := pyRfindDbl chunk
    if last ≠ -1 ∧ (last = 0 ∨ chunk.get? (last.toNat - 1) ≠ some '\\') then
      chunk.take last.toNat ++ '\\' :: '*' :: '*' :: chunk.drop (last.toNat + 2)
    else chunk
  else chunk

/-- Step 4: double a dangling trailing backslash. -/
def fixTrailing (chunk : Str) : Str :=
  if endsWith1 '\\' chunk ∧ ¬ endsWith2 '\\' '\\' chunk then chunk ++ ['\\']
  else chunk

/-- `_neutralize_unbalanced(chunk)`: the four sequential reassignments of
`chunk` in the source. -/
def _neutralize_unbalanced (chunk : Str) : Str :=
  fixTrailing (escapeStars (closeTick (closeTriple chunk)))

/-- One iteration of the splitting loop of `send_long_message`
(`MAX = 4096`): choose the cut, then apply the digit-run and
link-boundary adjustments.  Returns (chunk, new rest). -/
def splitStep (rest : Str) : Str × Str :=
  let cut0 := _find_safe_cut rest 4096
  let cut := if cut0 = 0 then 4096 else cut0
  let p1 := _avoid_digit_split (rest.take cut) (rest.drop cut)
  _fix_boundary_inside_link p1.1 p1.2

/-- The splitting loop of `send_long_message`, returning the pre-repair
chunks; the fuel makes non-progress (which loops forever in the source)
return `none`. -/
def splitGo : ℕ → Str → Option (List Str)
  | 0, _ => none
  | fuel + 1, rest =>
    if rest = [] then some []
    else if rest.length ≤ 4096 then some [rest]
    else
      match splitGo fuel (splitStep rest).2 with
      | none => none
      | some cs => some ((splitStep rest).1 :: cs)

/-- The pre-repair chunks of `send_long_message` for a given text. -/
def splitChunks (s : Str) : Option (List Str) := splitGo (s.length + 1) s

/-- The repaired Frames actually sent by `send_long_message`. -/
def sendFrames (s : Str) : Option (List Str) :=
  (splitChunks s).map (List.map _neutralize_unbalanced)

/-! ## Debounce scheduler and flush (`handle_message`,
`process_buffered_messages`, `bot.py`)

Sessions are chat ids (`ℕ`), time is in milliseconds (`ℕ`), the
0.8-second quiet interval is 800 ms.  A `telegram.ext.Job` scheduled by
`run_once` is a timer record; `schedule_removal` marks it removed. -/

/-- One scheduled debounce job (`job_queue.run_once`). -/
structure TimerRec where
  tid : ℕ
  chat : ℕ
  fireAt : ℕ
  removed : Bool
  fired : Bool
deriving DecidableEq, Repr

/-- The bot's module-level state: `user_message_buffers`,
`user_last_update`, `user_job_trackers`, the job queue's timers, the
per-chat mode, the messages sent to users and the envelopes put on the
dispatch queue (priority, chat, query). -/
structure BotState where
  now : ℕ
  user_message_buffers : ℕ → List String
  user_last_update : ℕ → Option ℕ
  user_job_trackers : ℕ → Option ℕ
  timers : List TimerRec
  nextTimerId : ℕ
  mode : ℕ → String
  sentMessages : List (ℕ × String)
  queuedJobs : List (ℕ × ℕ × String)

/-- `handle_message` (the buffering path, `bot.py` lines 1026–1042):
append the fragment, record the latest update, cancel any tracked timer,
schedule a fresh 800 ms timer and track it. -/
def handle_message (chat : ℕ) (text : String) (upd : ℕ) (s : BotState) :
    BotState :=
  let s1 : BotState :=
    { s with
      user_message_buffers := fun c =>
        if c = chat then s.user_message_buffers chat ++ [text]
        else s.user_message_buffers c
      user_last_update := fun c =>
        if c = chat then some upd else s.user_last_update c }
  let s2 : BotState :=
    match s1.user_job_trackers chat with
    | some tid =>
        { s1 with
          timers := s1.timers.map (fun t =>
            if t.tid = tid then { t with removed := true } else t) }
    | none => s1
  { s2 with
    timers := s2.timers ++ [⟨s2.nextTimerId, chat, s2.now + 800, false, false⟩]
    nextTimerId := s2.nextTimerId + 1
    user_job_trackers := fun c =>
      if c = chat then some s2.nextTimerId else s2.user_job_trackers c }

/-- `process_buffered_messages` (`bot.py` lines 1304–1345): pop the
buffer, latest update and tracker; no-op on empty data; advise the user
and drop the Job above 12000 characters; otherwise put one envelope on
the dispatch queue with the mode's static priority. -/
def process_buffered_messages (chat : ℕ) (s : BotState) : BotState :=
  let buffered := s.user_message_buffers chat
  let lastUpd := s.user_last_update chat
  let s1 : BotState := { s with
    user_message_buffers := fun c =>
      if c = chat then [] else s.user_message_buffers c
    user_last_update := fun c =>
      if c = chat then none else s.user_last_update c
    user_job_trackers := fun c =>
      if c = chat then none else s.user_job_trackers c }
  if buffered = [] ∨ lastUpd = none then s1
  else
    let full_query_text := String.intercalate " " buffered
    if full_query_text.length > 12000 then
      { s1 with sentMessages :=
          s1.sentMessages ++ [(chat, "error_message_too_long")] }
    else
      { s1 with queuedJobs :=
          s1.queuedJobs ++ [(modePriority (s.mode chat), chat, full_query_text)] }

/-- Fire one timer: a removed or already-fired job never runs; otherwise
mark it fired and run `process_buffered_messages` for its chat. -/
def fireTimer (s : BotState) (t : TimerRec) : BotState :=
  if t.removed ∨ t.fired then s
  else
    let s1 : BotState := { s with
      timers := s.timers.map (fun u =>
        if u.tid = t.tid then { u with fired := true } else u) }
    process_buffered_messages t.chat s1

/-- The first due, live timer in the queue. -/
def findDue (timers : List TimerRec) (upTo : ℕ) : Option TimerRec :=
  timers.find? (fun t => decide (t.fireAt ≤ upTo) && !t.removed && !t.fired)

/-- Fire all due timers, one at a time. -/
def fireDue : ℕ → ℕ → BotState → BotState
  | 0, _, s => s
  | fuel + 1, upTo, s =>
    match findDue s.timers upTo with
    | none => s
    | some t => fireDue fuel upTo (fireTimer s t)

/-- One inbound text message. -/
structure Arrival where
  chat : ℕ
  text : String
  upd : ℕ
  time : ℕ

/-- Process one arrival: run any timers that have come due, then the
buffering handler, at the arrival's wall-clock time. -/
def stepArrival (s : BotState) (a : Arrival) : BotState :=
  let s1 := fireDue s.timers.length a.time { s with now := max s.now a.time }
  handle_message a.chat a.text a.upd s1

/-- Run a whole trace of arrivals from a state. -/
def runTrace (evs : List Arrival) (s : BotState) : BotState :=
  evs.foldl stepArrival s

/-- After input stops, let every remaining timer fire. -/
def runToQuiescence (s : BotState) : BotState :=
  fireDue s.timers.length (s.timers.foldl (fun m t => max m t.fireAt) 0) s

/-- The initial bot state. -/
def initBot : BotState :=
  { now := 0
  , user_message_buffers := fun _ => []
  , user_last_update := fun _ => none
  , user_job_trackers := fun _ => none
  , timers := []
  , nextTimerId := 0
  , mode := fun _ => "fast_reply"
  , sentMessages := []
  , queuedJobs := [] }

/-- 100 inputs to one session, 10 ms apart. -/
def burst100 : List Arrival :=
  (List.range 100).map (fun i => ⟨1, "hi", i, 10 * i⟩)

/-- Number of live (scheduled, not removed, not fired) timers of a chat. -/
def liveCount (s : BotState) (c : ℕ) : ℕ :=
  (s.timers.filter (fun t => decide (t.chat = c) && !t.removed && !t.fired)).length

/-- Structural well-formedness of the timer queue: ids are below the id
counter, ids are pairwise distinct, and every live timer is the one its
chat's tracker points at. -/
def TimersOK (s : BotState) : Prop :=
  (∀ t ∈ s.timers, t.tid < s.nextTimerId) ∧
  s.timers.Pairwise (fun a b => a.tid ≠ b.tid) ∧
  (∀ t ∈ s.timers, t.removed = false → t.fired = false →
    s.user_job_trackers t.chat = some t.tid)

/-- A state with one buffered fragment for chat 7. -/
def c6state : BotState :=
  { initBot with
    user_message_buffers := fun c => if c = 7 then ["hello"] else []
    user_last_update := fun c => if c = 7 then some 1 else none }

/-! ## Code-as-file extraction (`_extract_code_to_files`, `bot.py`)

`_CODE_BLOCK_RE = ```([A-Za-z0-9_+\-]*)\n([\s\S]*?)\n``` `; blocks whose
body reaches `_CODE_AS_FILE_THRESHOLD = 2000` are sent as documents and
replaced in the text by the literal placeholder string of the source
(13 code points, ending in a newline).  `finditer` yields leftmost,
non-overlapping matches; the lazy body ends at the first `\n```. -/

/-- The character class `[A-Za-z0-9_+\-]` of the fence-language group. -/
def isLangChar (c : Char) : Bool :=
  ('A' ≤ c ∧ c ≤ 'Z') ∨ ('a' ≤ c ∧ c ≤ 'z') ∨ ('0' ≤ c ∧ c ≤ '9') ∨
    c = '_' ∨ c = '+' ∨ c = '-'

/-- The in-line placeholder appended instead of an extracted block: the
source file's literal 13-character string (ending in a newline). -/
def placeholder : Str :=
  [Char.ofNat 0xf8ff, Char.ofNat 0xfc, Char.ofNat 0xeb, Char.ofNat 0xdc,
   Char.ofNat 0xf8ff, Char.ofNat 0xfc, Char.ofNat 0xec, Char.ofNat 0xd1,
   Char.ofNat 0xf8ff, Char.ofNat 0xfc, Char.ofNat 0xec, Char.ofNat 0xe9, '\n']

/-- Lowercasing as `str.lower` (ASCII range, which covers the language
group's character class). -/
def lowerStr (s : Str) : Str := s.map Char.toLower

/-- `_guess_ext`: map a (lowercased) language tag to a file extension,
defaulting to `txt`. -/
def _guess_ext (lang : Str) : Str :=
  let l := lowerStr lang
  if l = "py".toList ∨ l = "python".toList then "py".toList
  else if l = "js".toList ∨ l = "javascript".toList then "js".toList
  else if l = "ts".toList ∨ l = "typescript".toList then "ts".toList
  else if l = "json".toList then "json".toList
  else if l = "bash".toList ∨ l = "sh".toList ∨ l = "shell".toList then "sh".toList
  else if l = "html".toList then "html".toList
  else if l = "css".toList then "css".toList
  else if l = "java".toList then "java".toList
  else if l = "c".toList then "c".toList
  else if l = "cpp".toList ∨ l = "c++".toList then "cpp".toList
  else if l = "go".toList ∨ l = "golang".toList then "go".toList
  else if l = "rs".toList ∨ l = "rust".toList then "rs".toList
  else if l = "rb".toList ∨ l = "ruby".toList then "rb".toList
  else if l = "php".toList then "php".toList
  else if l = "kt".toList ∨ l = "kotlin".toList then "kt".toList
  else if l = "swift".toList then "swift".toList
  else if l = "sql".toList then "sql".toList
  else if l = "yaml".toList ∨ l = "yml".toList then "yml".toList
  else if l = "md".toList ∨ l = "markdown".toList then "md".toList
  else if l = "txt".toList ∨ l = "text".toList ∨ l = [] then "txt".toList
  else "txt".toList

/-- Find the lazy body: split at the first occurrence of `"\n```"`,
returning the body before it and the text after the closing fence. -/
def findClose : Str → Option (Str × Str)
  | [] => none
  | c :: rest =>
    if c = '\n' ∧ rest.take 3 = [btk, btk, btk] then some ([], rest.drop 3)
    else
      match findClose rest with
      | none => none
      | some (body, after) => some (c :: body, after)

/-- Try `_CODE_BLOCK_RE` at the current position, returning
`(lang, code, after)` on a match. -/
def blockMatchAt : Str → Option (Str × Str × Str)
  | b1 :: b2 :: b3 :: rest =>
    if b1 = btk ∧ b2 = btk ∧ b3 = btk then
      match rest.dropWhile isLangChar with
      | d :: rest3 =>
        if d = '\n' then
          match findClose rest3 with
          | some (code, after) => some (rest.takeWhile isLangChar, code, after)
          | none => none
        else none
      | [] => none
    else none
  | _ => none

/-- The `finditer` loop of `_extract_code_to_files`: at each match, a
body under the threshold stays in the text verbatim, a body at or above
it is replaced by the placeholder and collected as an attachment
`(extension, code)`; scanning resumes after the match either way. -/
def extractGoF : ℕ → Str → Str × List (Str × Str)
  | 0, s => (s, [])
  | _, [] => ([], [])
  | fuel + 1, c :: rest =>
    match blockMatchAt (c :: rest) with
    | some (lang, code, after) =>
      let p := extractGoF fuel after
      if code.length < 2000 then
        (btk :: btk :: btk ::
          (lang ++ '\n' :: (code ++ '\n' :: btk :: btk :: btk :: p.1)), p.2)
      else
        (placeholder ++ p.1, (_guess_ext lang, code) :: p.2)
    | none =>
      let p := extractGoF fuel rest
      (c :: p.1, p.2)

/-- `_extract_code_to_files`: the rewritten text and the attachments. -/
def _extract_code_to_files (s : Str) : Str × List (Str × Str) :=
  extractGoF (s.length + 1) s

/-! ## Plain-text fallback (`_clean_text_for_plain_send`, `bot.py`)

Rule 1 removes every backslash, then every asterisk; rule 2 removes
every `_URL_IN_PARENS = \((https?://[^)\s]+)\)` match; rule 3 drops
lines whose stripped form is `---`; rule 4 collapses runs of three or
more newlines to two.  `\s` and `str.strip` are modelled over the six
ASCII whitespace characters. -/

/-- ASCII `\s` / `str.strip` whitespace. -/
def isPyWS (c : Char) : Bool :=
  c = ' ' ∨ c = '\t' ∨ c = '\n' ∨ c = '\r' ∨ c = '\x0b' ∨ c = '\x0c'

/-- Rule 1: `text.replace('\\', '').replace('*', '')`. -/
def removeBackslashStar (s : Str) : Str :=
  (s.filter (fun c => c ≠ '\\')).filter (fun c => c ≠ '*')

/-- The character class `[^)\s]` of the URL body. -/
def urlBodyChar (c : Char) : Bool := !(decide (c = ')')) && !(isPyWS c)

/-- Consume a literal from the front, or fail. -/
def dropLit : Str → Str → Option Str
  | [], s => some s
  | _ :: _, [] => none
  | c :: cs, x :: xs => if x = c then dropLit cs xs else none

/-- Try `\((https?://[^)\s]+)\)` at the current position; on a match
return the text after it.  (The greedy body admits no backtracking:
each shorter body ends before a non-`)` character.) -/
def urlMatchAt (s : Str) : Option Str :=
  match s with
  | c :: rest =>
    if c = '(' then
      match dropLit ['h', 't', 't', 'p'] rest with
      | none => none
      | some r1 =>
        match (match dropLit ['s', ':', '/', '/'] r1 with
               | some r => some r
               | none => dropLit [':', '/', '/'] r1) with
        | none => none
        | some r2 =>
          let body := r2.takeWhile urlBodyChar
          let r3 := r2.dropWhile urlBodyChar
          if body = [] then none
          else
            match r3 with
            | c2 :: r4 => if c2 = ')' then some r4 else none
            | [] => none
    else none
  | [] => none

/-- Whether some position of the text matches `_URL_IN_PARENS`. -/
def hasUrl : Str → Bool
  | [] => false
  | c :: rest => (urlMatchAt (c :: rest)).isSome || hasUrl rest

/-- Rule 2, the `re.sub` scan: replace each non-overlapping match by
nothing and continue after it. -/
def remUrlsF : ℕ → Str → Str
  | 0, s => s
  | _, [] => []
  | fuel + 1, c :: rest =>
    match urlMatchAt (c :: rest) with
    | some after => remUrlsF fuel after
    | none => c :: remUrlsF fuel rest

/-- Rule 2 with enough fuel for the whole text. -/
def remUrls (s : Str) : Str := remUrlsF (s.length + 1) s

/-- `str.strip()` (ASCII whitespace). -/
def pyStrip (s : Str) : Str :=
  ((s.dropWhile isPyWS).reverse.dropWhile isPyWS).reverse

/-- Rule 3's line filter: keep lines whose stripped form is not `---`. -/
def keepLine (l : Str) : Bool := pyStrip l ≠ ['-', '-', '-']

/-- `text.split('\n')`: always at least one (possibly empty) line. -/
def splitNL : Str → List Str
  | [] => [[]]
  | c :: rest =>
    if c = '\n' then [] :: splitNL rest
    else (c :: (splitNL rest).headI) :: (splitNL rest).tail

/-- `'\n'.join(lines)`. -/
def joinNL : List Str → Str
  | [] => []
  | [l] => l
  | l :: l2 :: ls => l ++ '\n' :: joinNL (l2 :: ls)

/-- Rule 3: drop `---` lines. -/
def removeDashLines (s : Str) : Str :=
  joinNL ((splitNL s).filter keepLine)

/-- Rule 4, `re.sub(r'\n{3,}', '\n\n', ·)`, as a left-to-right scan:
`run` counts the newlines already emitted in the current run; a newline
beyond the second of a run is dropped. -/
def collapseSt : ℕ → Str → Str
  | _, [] => []
  | run, c :: rest =>
    if c = '\n' then
      if run < 2 then '\n' :: collapseSt (run + 1) rest
      else collapseSt (run + 1) rest
    else c :: collapseSt 0 rest

/-- Rule 4 at the start of the text. -/
def collapse (s : Str) : Str := collapseSt 0 s

/-- `_clean_text_for_plain_send`: rules 1–4 in order. -/
def _clean_text_for_plain_send (s : Str) : Str :=
  collapse (removeDashLines (remUrls (removeBackslashStar s)))

/-- Newline test for run bookkeeping. -/
def isNL (c : Char) : Bool := c = '\n'

/-- Length of the leading newline run. -/
def leadNL (s : Str) : ℕ := (s.takeWhile isNL).length

/-- Whether the text contains three consecutive newlines (a `\n{3,}`
match). -/
def hasTriple : Str → Bool
  | a :: b :: c :: rest =>
    if a = '\n' ∧ b = '\n' ∧ c = '\n' then true else hasTriple (b :: c :: rest)
  | _ => false

end Brainy

namespace Brainy

/-! ## Theorems: governor, retry decorator, dispatch queue -/

lemma setNextOk_get (s : GovState) (m : Model) (v : ℚ) :
    _get_next_ok (setNextOk s m v) m = v := by
  simp [_get_next_ok, setNextOk]

lemma setNextOk_other (s : GovState) (m m' : Model) (v : ℚ) (hne : m' ≠ m) :
    (setNextOk s m v).nextOk m' = s.nextOk m' := by
  simp [setNextOk, hne]

lemma setNextOk_time (s : GovState) (m : Model) (v : ℚ) :
    (setNextOk s m v).time = s.time := rfl

lemma respect_nextOk_other (m m' : Model) (h : RateHeaders) (p : Bool)
    (s : GovState) (hne : m' ≠ m) :
    (_respect_headers m h p s).nextOk m' = s.nextOk m' := by
  unfold _respect_headers
  dsimp only
  split_ifs <;> simp [setNextOk, hne]

lemma respect_time (m : Model) (h : RateHeaders) (p : Bool) (s : GovState) :
    (_respect_headers m h p s).time = s.time := by
  unfold _respect_headers
  dsimp only
  split_ifs <;> rfl

lemma wait_nextOk (m : Model) (s : GovState) :
    (_wait_if_needed m s).nextOk = s.nextOk := rfl

lemma wait_time_le (m : Model) (s : GovState) :
    s.time ≤ (_wait_if_needed m s).time := le_max_left _ _

/-- A 429 with only a 30-second reset hint: `_respect_headers` computes
`delay = max(ceil(30) + 0.5, 0) = 30.5` from the exhausted-quota branch
(absent `remaining` defaults to 0). -/
lemma respect_reset30 (m : Model) (p : Bool) (s : GovState) :
    _respect_headers m ⟨none, none, some 30, none⟩ p s =
      setNextOk s m (max ((s.nextOk m).getD s.time) (s.time + 61/2)) := by
  unfold _respect_headers _parse_rate_headers
  norm_num

lemma other_ne : ∀ m : Model, m ≠ _other_free m := by
  intro m
  cases m <;> decide

/-- Any caught primary failure (throttling, unavailability, or a
connection/timeout error) triggers exactly one retry against the single
alternate backend: its success is returned, the call trace is
`[primary, alternate]`, and the primary is marked ineligible until at
least 3 s past the call time. -/
lemma fallback_caught (s : GovState) (beh : Model → Response) (m : Model)
    (er : CallError) (sE : GovState)
    (hcall : _chat_once beh m s = (.error er, sE, [m]))
    (hcatch : fallbackCatches er = true)
    (htime : s.time ≤ sE.time)
    (h4 : RateHeaders) (w : ℕ) (hok : beh (_other_free m) = .ok h4 w) :
    (chat_with_fallback beh m s).1 = .ok w ∧
    (chat_with_fallback beh m s).2.2 = [m, _other_free m] ∧
    s.time + 3 ≤ _get_next_ok (chat_with_fallback beh m s).2.1 m := by
  have hne : m ≠ _other_free m := other_ne m
  set val := max (_get_next_ok sE m) (sE.time + 3) with hval
  have heq : chat_with_fallback beh m s =
      (.ok w,
       _respect_headers (_other_free m) h4 true
         (_wait_if_needed (_other_free m) (setNextOk sE m val)),
       [m, _other_free m]) := by
    unfold chat_with_fallback
    rw [hcall]
    simp only [hcatch, if_true]
    unfold _chat_once
    rw [hok]
    rfl
  rw [heq]
  refine ⟨rfl, rfl, ?_⟩
  have hfin : (_respect_headers (_other_free m) h4 true
      (_wait_if_needed (_other_free m) (setNextOk sE m val))).nextOk m
      = some val := by
    rw [respect_nextOk_other _ _ _ _ _ hne, wait_nextOk]
    simp [setNextOk]
  simp only [_get_next_ok, hfin, Option.getD_some]
  have hmax : sE.time + 3 ≤ val := by
    rw [hval]
    exact le_max_right _ _
  linarith

/-- C4: primary throttled with a 30 s reset hint, alternate healthy: the
caller receives the alternate's success, exactly the two backends are
called in order, and the primary's next-eligible-time moves at least 30 s
past the call time; if the alternate also fails, its error propagates
with still exactly one retry (no recursive failover); and for every
caught failure mode of any primary — throttling, unavailability, or a
connection/timeout error — the Governor marks the primary ineligible for
at least 3 s and retries exactly once against the single alternate,
returning its success to the caller. -/
theorem c4_throttle_single_failover (s : GovState) (beh : Model → Response)
    (h2 : RateHeaders) (v : ℕ)
    (hp : beh .apriel16 = .throttled ⟨none, none, some 30, none⟩)
    (hs : beh .apriel15 = .ok h2 v) :
    ((chat_with_fallback beh .apriel16 s).1 = .ok v ∧
      (chat_with_fallback beh .apriel16 s).2.2 = [.apriel16, .apriel15] ∧
      s.time + 30 ≤
        _get_next_ok (chat_with_fallback beh .apriel16 s).2.1 .apriel16) ∧
    (∀ (beh3 : Model → Response) (m : Model) (h3 h4 : RateHeaders) (w : ℕ),
      (beh3 m = .throttled h3 ∨ beh3 m = .unavailable h3 ∨ beh3 m = .netErr) →
      beh3 (_other_free m) = .ok h4 w →
      (chat_with_fallback beh3 m s).1 = .ok w ∧
      (chat_with_fallback beh3 m s).2.2 = [m, _other_free m] ∧
      s.time + 3 ≤ _get_next_ok (chat_with_fallback beh3 m s).2.1 m) ∧
    (∀ beh2 : Model → Response,
      beh2 .apriel16 = .throttled ⟨none, none, some 30, none⟩ →
      beh2 .apriel15 = .netErr →
      (chat_with_fallback beh2 .apriel16 s).1 = .error .net ∧
      (chat_with_fallback beh2 .apriel16 s).2.2 = [.apriel16, .apriel15]) := by
  have hne : Model.apriel16 ≠ Model.apriel15 := by decide
  have hsec : _other_free .apriel16 = .apriel15 := rfl
  -- the primary call raises RateLimitError after updating its pacing entry
  have h1 : ∀ beh' : Model → Response,
      beh' .apriel16 = .throttled ⟨none, none, some 30, none⟩ →
      _chat_once beh' .apriel16 s =
        (.error .rateLimit,
         _respect_headers .apriel16 ⟨none, none, some 30, none⟩ false
           (_respect_headers .apriel16 ⟨none, none, some 30, none⟩ false
             (_wait_if_needed .apriel16 s)), [.apriel16]) := by
    intro beh' hb
    unfold _chat_once
    rw [hb]
  refine ⟨?sc, ?general, ?alt⟩
  case general =>
    -- every caught failure mode fails over exactly once
    intro beh3 m h3 h4 w hfail hok
    rcases hfail with hb | hb | hb
    · exact fallback_caught s beh3 m .rateLimit
        (_respect_headers m h3 false
          (_respect_headers m h3 false (_wait_if_needed m s)))
        (by unfold _chat_once; rw [hb])
        rfl
        (by rw [respect_time, respect_time]; exact wait_time_le _ _)
        h4 w hok
    · exact fallback_caught s beh3 m .serviceUnavailable
        (_respect_headers m h3 false
          (_respect_headers m h3 false (_wait_if_needed m s)))
        (by unfold _chat_once; rw [hb])
        rfl
        (by rw [respect_time, respect_time]; exact wait_time_le _ _)
        h4 w hok
    · exact fallback_caught s beh3 m .net
        (_wait_if_needed m s)
        (by unfold _chat_once; rw [hb])
        rfl
        (wait_time_le _ _)
        h4 w hok
  · -- the success scenario
    have heq : chat_with_fallback beh .apriel16 s =
        (Except.ok v,
         _respect_headers .apriel15 h2 true
           (_wait_if_needed .apriel15
             (setNextOk
               (_respect_headers .apriel16 ⟨none, none, some 30, none⟩ false
                 (_respect_headers .apriel16 ⟨none, none, some 30, none⟩ false
                   (_wait_if_needed .apriel16 s)))
               .apriel16
               (max (_get_next_ok
                 (_respect_headers .apriel16 ⟨none, none, some 30, none⟩ false
                   (_respect_headers .apriel16 ⟨none, none, some 30, none⟩ false
                     (_wait_if_needed .apriel16 s))) .apriel16)
                 ((_respect_headers .apriel16 ⟨none, none, some 30, none⟩ false
                   (_respect_headers .apriel16 ⟨none, none, some 30, none⟩ false
                     (_wait_if_needed .apriel16 s))).time + 3)))),
         [.apriel16, .apriel15]) := by
      unfold chat_with_fallback
      rw [h1 beh hp, hsec]
      simp only [fallbackCatches, if_true]
      unfold _chat_once
      rw [hs]
      rfl
    rw [heq]
    refine ⟨rfl, rfl, ?_⟩
    -- the primary's next-eligible-time
    set s1 := _wait_if_needed .apriel16 s with hs1
    have ht1 : s.time ≤ s1.time := wait_time_le _ _
    rw [respect_reset30]
    set a := max ((s1.nextOk .apriel16).getD s1.time) (s1.time + 61/2) with ha
    have hge : s.time + 30 ≤ a := by
      have : s.time + 30 ≤ s1.time + 61/2 := by linarith
      exact le_trans this (le_max_right _ _)
    set s2 := setNextOk s1 .apriel16 a with hs2
    rw [respect_reset30]
    set b := max ((s2.nextOk .apriel16).getD s2.time) (s2.time + 61/2) with hb
    have hab : a ≤ b := by
      have hx : (s2.nextOk .apriel16).getD s2.time = a := by
        simp [hs2, setNextOk]
      rw [hb, hx]
      exact le_max_left _ _
    set s3 := setNextOk s2 .apriel16 b with hs3
    set c := max (_get_next_ok s3 .apriel16) (s3.time + 3) with hc
    have hbc : b ≤ c := by
      have hx : _get_next_ok s3 .apriel16 = b := setNextOk_get _ _ _
      rw [hc, hx]
      exact le_max_left _ _
    -- the alternate's call does not touch the primary's entry
    have hfinal : (_respect_headers .apriel15 h2 true
        (_wait_if_needed .apriel15 (setNextOk s3 .apriel16 c))).nextOk .apriel16
          = some c := by
      rw [respect_nextOk_other _ _ _ _ _ hne, wait_nextOk]
      simp [setNextOk]
    simp only [_get_next_ok, hfinal, Option.getD_some]
    linarith [hge, hab, hbc]
  · -- the alternate-fails scenario: its error propagates, no third call
    intro beh2 hp2 hs2
    have heq : chat_with_fallback beh2 .apriel16 s =
        (Except.error .net,
         _wait_if_needed .apriel15
           (setNextOk
             (_respect_headers .apriel16 ⟨none, none, some 30, none⟩ false
               (_respect_headers .apriel16 ⟨none, none, some 30, none⟩ false
                 (_wait_if_needed .apriel16 s)))
             .apriel16
             (max (_get_next_ok
               (_respect_headers .apriel16 ⟨none, none, some 30, none⟩ false
                 (_respect_headers .apriel16 ⟨none, none, some 30, none⟩ false
                   (_wait_if_needed .apriel16 s))) .apriel16)
               ((_respect_headers .apriel16 ⟨none, none, some 30, none⟩ false
                 (_respect_headers .apriel16 ⟨none, none, some 30, none⟩ false
                   (_wait_if_needed .apriel16 s))).time + 3))),
         [.apriel16, .apriel15]) := by
      unfold chat_with_fallback
      rw [h1 beh2 hp2, hsec]
      simp only [fallbackCatches, if_true]
      unfold _chat_once
      rw [hs2]
      rfl
    rw [heq]
    exact ⟨rfl, rfl⟩

/-- C4 witness: the failover scenario at a concrete state and backend
behaviour. -/
theorem c4_throttle_single_failover_witness :
    ((chat_with_fallback
        (fun m => match m with
          | .apriel16 => .throttled ⟨none, none, some 30, none⟩
          | .apriel15 => .ok ⟨none, none, none, none⟩ 7)
        .apriel16 ⟨0, fun _ => none⟩).1 = .ok 7 ∧
      (chat_with_fallback
        (fun m => match m with
          | .apriel16 => .throttled ⟨none, none, some 30, none⟩
          | .apriel15 => .ok ⟨none, none, none, none⟩ 7)
        .apriel16 ⟨0, fun _ => none⟩).2.2 = [.apriel16, .apriel15] ∧
      (0 : ℚ) + 30 ≤
        _get_next_ok (chat_with_fallback
          (fun m => match m with
            | .apriel16 => .throttled ⟨none, none, some 30, none⟩
            | .apriel15 => .ok ⟨none, none, none, none⟩ 7)
          .apriel16 ⟨0, fun _ => none⟩).2.1 .apriel16) :=
  (c4_throttle_single_failover ⟨0, fun _ => none⟩ _ ⟨none, none, none, none⟩ 7
    rfl rfl).1

/-- C7 (counterexample): three transient non-throttling failures then a
success sleep 2 s, 4 s, 60 s — the wait before the final attempt is the
fixed 60 s override, not the exponential 8 s the claim implies. -/
theorem c7_delays_not_exponential :
    (retryRun (fun i => if i < 3 then some .readTimeout else none)
        ⟨0, 0⟩).2.2.2 = [2, 4, 60] ∧
    ([2, 4, 60] : List ℚ) ≠ [2, 4, 2 * 2 * 2] := by
  constructor
  · norm_num [retryRun, retryLoop,
      (by decide : TErr.readTimeout ≠ TErr.rateLimit)]
  · norm_num

/-- C7 (amended): the decorator retries with exponential backoff for the
initial retries but a fixed 60 s wait before the final attempt; a failure
on the 4th attempt propagates; a throttling error sets the shared 60 s
cooldown; any caller entering during an active cooldown first waits it
out. -/
theorem c7_retry_decorator (k : TErr) (hk : k ≠ .rateLimit) :
    (retryRun (fun _ => some k) ⟨0, 0⟩ =
        (some k, ⟨66, 0⟩, 0, [2, 4, 60])) ∧
    (retryRun (fun i => if i = 0 then some .rateLimit else none) ⟨0, 0⟩ =
        (none, ⟨60, 60⟩, 0, [60])) ∧
    (∀ s : RetryState, s.time < s.cooldownUntil →
      (retryRun (fun _ => none) s).2.2.1 = s.cooldownUntil - s.time ∧
      (retryRun (fun _ => none) s).2.1.time = s.cooldownUntil) := by
  refine ⟨?_, ?_, ?_⟩
  · norm_num [retryRun, retryLoop, hk]
  · norm_num [retryRun, retryLoop]
  · intro s hlt
    have hw : 0 < s.cooldownUntil - s.time := by linarith
    unfold retryRun retryLoop
    simp only [if_pos hw]
    norm_num

/-- C7 witness. -/
theorem c7_retry_decorator_witness :
    retryRun (fun _ => some .readTimeout) ⟨0, 0⟩ =
      (some .readTimeout, ⟨66, 0⟩, 0, [2, 4, 60]) :=
  (c7_retry_decorator .readTimeout (by decide)).1

/-- C1: `process_buffered_messages` maps mode `fast_reply` to priority 1
and enqueues the bare pair `(priority, request)`.  Pushing a second
equal-priority envelope onto the `heapq`-backed queue makes the tuple
comparison fall through to the unorderable `Request` payloads and raise
`TypeError`: no sequence number exists to break the tie. -/
theorem c1_equal_priority_push_raises :
    modePriority "fast_reply" = 1 ∧
    heappush [] ⟨1, 101⟩ = .ok [⟨1, 101⟩] ∧
    heappush [⟨1, 101⟩] ⟨1, 102⟩ = .error () ∧
    heappush [⟨1, 101⟩] ⟨2, 102⟩ = .ok [⟨1, 101⟩, ⟨2, 102⟩] := by
  refine ⟨by decide, rfl, rfl, rfl⟩

/-! ## Theorems: per-frame repair (C3) -/

/-- C3 (counterexample): repairing the frame `a**b` (odd `**` count)
escapes the `**` in place, producing `a\**b`; nothing is appended, so the
original frame is not a prefix of the repaired one as the claim's
append-only repair would force. -/
theorem c3_star_repair_escapes_not_appends :
    _neutralize_unbalanced ['a', '*', '*', 'b'] = ['a', '\\', '*', '*', 'b'] ∧
    (_neutralize_unbalanced ['a', '*', '*', 'b']).take 4 ≠ ['a', '*', '*', 'b'] :=
  ⟨by decide, by decide⟩

/-- The final trailing-backslash step of `_neutralize_unbalanced` never
leaves a frame ending in a single (unescaped) backslash. -/
lemma no_single_trailing (s : Str) :
    ¬(endsWith1 '\\' (fixTrailing s) = true ∧
      ¬ endsWith2 '\\' '\\' (fixTrailing s) = true) := by
  unfold fixTrailing
  by_cases hc : endsWith1 '\\' s = true ∧ ¬ endsWith2 '\\' '\\' s = true
  · rw [if_pos hc]
    have h1 : s.reverse.head? = some '\\' := by
      have := hc.1
      simpa [endsWith1] using this
    obtain ⟨t, ht⟩ : ∃ t, s.reverse = '\\' :: t := by
      cases hrev : s.reverse with
      | nil => rw [hrev] at h1; simp at h1
      | cons y t =>
        rw [hrev] at h1
        simp at h1
        exact ⟨t, by rw [h1]⟩
    have h2 : endsWith2 '\\' '\\' (s ++ ['\\']) = true := by
      simp [endsWith2, List.reverse_append, ht]
    intro hcontra
    exact hcontra.2 h2
  · rw [if_neg hc]
    exact hc

lemma countTripleGo_fence_tail (prev : Char) :
    countTripleGo prev ('\n' :: btk :: btk :: [btk]) = 1 := by
  have h1 : countTripleGo prev ('\n' :: btk :: btk :: [btk]) =
      if prev ≠ '\\' ∧ '\n' = btk ∧ btk = btk ∧ btk = btk then
        1 + countTripleGo btk [btk]
      else countTripleGo '\n' (btk :: btk :: [btk]) := rfl
  rw [h1, if_neg (fun hc => absurd hc.2.1 (by decide))]
  decide

lemma countTripleGo_append_fence : ∀ (n : ℕ) (s : Str), s.length ≤ n →
    ∀ prev : Char,
      countTripleGo prev (s ++ '\n' :: [btk, btk, btk]) =
        countTripleGo prev s + 1 := by
  intro n
  induction n with
  | zero =>
    intro s hl prev
    have hnil : s = [] := List.eq_nil_of_length_eq_zero (Nat.le_zero.mp hl)
    subst hnil
    rw [List.nil_append, countTripleGo_fence_tail]
    rfl
  | succ n ih =>
    intro s hl prev
    match s with
    | [] =>
      rw [List.nil_append, countTripleGo_fence_tail]
      rfl
    | [x] =>
      have h1 : countTripleGo prev (x :: '\n' :: btk :: btk :: [btk]) =
          if prev ≠ '\\' ∧ x = btk ∧ '\n' = btk ∧ btk = btk then
            1 + countTripleGo btk (btk :: [btk])
          else countTripleGo x ('\n' :: btk :: btk :: [btk]) := rfl
      rw [show ([x] : Str) ++ '\n' :: [btk, btk, btk]
        = x :: '\n' :: btk :: btk :: [btk] from rfl]
      rw [h1, if_neg (fun hc => absurd hc.2.2.1 (by decide)),
        countTripleGo_fence_tail]
      rfl
    | [x, y] =>
      have h1 : countTripleGo prev (x :: y :: '\n' :: btk :: btk :: [btk]) =
          if prev ≠ '\\' ∧ x = btk ∧ y = btk ∧ '\n' = btk then
            1 + countTripleGo btk (btk :: btk :: [btk])
          else countTripleGo x (y :: '\n' :: btk :: btk :: [btk]) := rfl
      have h2 : countTripleGo x (y :: '\n' :: btk :: btk :: [btk]) =
          if x ≠ '\\' ∧ y = btk ∧ '\n' = btk ∧ btk = btk then
            1 + countTripleGo btk (btk :: [btk])
          else countTripleGo y ('\n' :: btk :: btk :: [btk]) := rfl
      rw [show ([x, y] : Str) ++ '\n' :: [btk, btk, btk]
        = x :: y :: '\n' :: btk :: btk :: [btk] from rfl]
      rw [h1, if_neg (fun hc => absurd hc.2.2.2 (by decide)),
        h2, if_neg (fun hc => absurd hc.2.2.1 (by decide)),
        countTripleGo_fence_tail]
      rfl
    | x :: y :: z :: rest =>
      rw [show (x :: y :: z :: rest) ++ '\n' :: [btk, btk, btk]
        = x :: y :: z :: (rest ++ '\n' :: [btk, btk, btk]) from rfl]
      have h1 : countTripleGo prev
          (x :: y :: z :: (rest ++ '\n' :: [btk, btk, btk])) =
          if prev ≠ '\\' ∧ x = btk ∧ y = btk ∧ z = btk then
            1 + countTripleGo btk (rest ++ '\n' :: [btk, btk, btk])
          else countTripleGo x (y :: z :: (rest ++ '\n' :: [btk, btk, btk])) := rfl
      have h2 : countTripleGo prev (x :: y :: z :: rest) =
          if prev ≠ '\\' ∧ x = btk ∧ y = btk ∧ z = btk then
            1 + countTripleGo btk rest
          else countTripleGo x (y :: z :: rest) := rfl
      rw [h1, h2]
      by_cases hcond : prev ≠ '\\' ∧ x = btk ∧ y = btk ∧ z = btk
      · rw [if_pos hcond, if_pos hcond,
          ih rest (by simp only [List.length_cons] at hl; omega) btk]
        omega
      · rw [if_neg hcond, if_neg hcond]
        have hr := ih (y :: z :: rest)
          (by simp only [List.length_cons] at hl ⊢; omega) x
        rw [show (y :: z :: rest) ++ '\n' :: [btk, btk, btk]
          = y :: z :: (rest ++ '\n' :: [btk, btk, btk]) from rfl] at hr
        exact hr

/-- Appending the synthetic closing fence raises the fence count by
exactly one (the appended fence follows a newline, so it cannot be
escaped, and it cannot merge with earlier text). -/
lemma count_triple_append_fence (chunk : Str) :
    count_triple (chunk ++ '\n' :: [btk, btk, btk]) = count_triple chunk + 1 :=
  countTripleGo_append_fence chunk.length chunk (le_refl _) sentinel

lemma pyRfindDblGo_sound : ∀ (t : Str) (i : ℕ) (best : ℤ),
    pyRfindDblGo i best t = best ∨
    ∃ p : ℕ, pyRfindDblGo i best t = (i : ℤ) + p ∧
      t.get? p = some '*' ∧ t.get? (p + 1) = some '*' := by
  intro t
  induction t with
  | nil => intro i best; left; rfl
  | cons a t' ih =>
    intro i best
    match t' with
    | [] => left; rfl
    | b :: rest =>
      rw [show pyRfindDblGo i best (a :: b :: rest) = pyRfindDblGo (i + 1)
        (if a = '*' ∧ b = '*' then (i : ℤ) else best) (b :: rest) from rfl]
      rcases ih (i + 1) (if a = '*' ∧ b = '*' then (i : ℤ) else best) with
        heq | ⟨p, hp, h2, h3⟩
      · rw [heq]
        by_cases hab : a = '*' ∧ b = '*'
        · right
          refine ⟨0, ?_, ?_, ?_⟩
          · rw [if_pos hab]; simp
          · simp [hab.1]
          · rw [List.get?_cons_succ, List.get?_cons_zero, hab.2]
        · left
          rw [if_neg hab]
      · right
        refine ⟨p + 1, ?_, ?_, ?_⟩
        · rw [hp]; push_cast; ring
        · rw [List.get?_cons_succ]; exact h2
        · rw [List.get?_cons_succ]; exact h3

lemma pyRfindDblGo_lb : ∀ (t : Str) (i : ℕ) (best : ℤ), best ≤ (i : ℤ) →
    best ≤ pyRfindDblGo i best t := by
  intro t
  induction t with
  | nil => intro i best _; exact le_refl _
  | cons a t' ih =>
    intro i best h
    match t' with
    | [] => exact le_refl _
    | b :: rest =>
      rw [show pyRfindDblGo i best (a :: b :: rest) = pyRfindDblGo (i + 1)
        (if a = '*' ∧ b = '*' then (i : ℤ) else best) (b :: rest) from rfl]
      by_cases hab : a = '*' ∧ b = '*'
      · rw [if_pos hab]
        have hr := ih (i + 1) (i : ℤ) (by push_cast; omega)
        exact le_trans h hr
      · rw [if_neg hab]
        exact ih (i + 1) best (by push_cast at h ⊢; omega)

lemma pyRfindDblGo_max : ∀ (t : Str) (i : ℕ) (best : ℤ) (p : ℕ),
    t.get? p = some '*' → t.get? (p + 1) = some '*' →
    (i : ℤ) + p ≤ pyRfindDblGo i best t := by
  intro t
  induction t with
  | nil => intro i best p h1 _; rw [List.get?_nil] at h1; exact absurd h1 (by simp)
  | cons a t' ih =>
    intro i best p h1 h2
    match t' with
    | [] =>
      cases p with
      | zero =>
        rw [List.get?_cons_succ, List.get?_nil] at h2
        exact absurd h2 (by simp)
      | succ q =>
        rw [List.get?_cons_succ, List.get?_nil] at h1
        exact absurd h1 (by simp)
    | b :: rest =>
      rw [show pyRfindDblGo i best (a :: b :: rest) = pyRfindDblGo (i + 1)
        (if a = '*' ∧ b = '*' then (i : ℤ) else best) (b :: rest) from rfl]
      cases p with
      | zero =>
        have ha : a = '*' := by
          rw [List.get?_cons_zero] at h1; exact Option.some.inj h1
        have hb : b = '*' := by
          rw [List.get?_cons_succ, List.get?_cons_zero] at h2
          exact Option.some.inj h2
        rw [if_pos ⟨ha, hb⟩]
        have hr := pyRfindDblGo_lb (b :: rest) (i + 1) (i : ℤ) (by push_cast; omega)
        calc (i : ℤ) + (0 : ℕ) = (i : ℤ) := by push_cast; ring
        _ ≤ _ := hr
      | succ q =>
        rw [List.get?_cons_succ] at h1 h2
        have hr := ih (i + 1) (if a = '*' ∧ b = '*' then (i : ℤ) else best) q h1 h2
        calc (i : ℤ) + ((q + 1 : ℕ) : ℤ) = ((i + 1 : ℕ) : ℤ) + q := by push_cast; ring
        _ ≤ _ := hr

lemma countDblGo_pos_match : ∀ (s : Str) (prev : Char), 0 < countDblGo prev s →
    ∃ p : ℕ, s.get? p = some '*' ∧ s.get? (p + 1) = some '*' := by
  intro s
  induction s with
  | nil => intro prev h; rw [show countDblGo prev [] = 0 from rfl] at h; omega
  | cons a s' ih =>
    intro prev h
    match s' with
    | [] => rw [show countDblGo prev [a] = 0 from rfl] at h; omega
    | b :: rest =>
      rw [show countDblGo prev (a :: b :: rest) =
          if prev ≠ '\\' ∧ a = '*' ∧ b = '*' then 1 + countDblGo '*' rest
          else countDblGo a (b :: rest) from rfl] at h
      by_cases hc : prev ≠ '\\' ∧ a = '*' ∧ b = '*'
      · refine ⟨0, ?_, ?_⟩
        · rw [List.get?_cons_zero, hc.2.1]
        · rw [List.get?_cons_succ, List.get?_cons_zero, hc.2.2]
      · rw [if_neg hc] at h
        obtain ⟨p, hp1, hp2⟩ := ih a h
        refine ⟨p + 1, ?_, ?_⟩
        · rw [List.get?_cons_succ]; exact hp1
        · rw [List.get?_cons_succ]; exact hp2

/-- With an odd unescaped `**` count, `escapeStars` locates the last
plain `**` (the `rfind` result), and — unless that occurrence is itself
escaped — rewrites it in place to `\**`, growing the chunk by exactly
one character (an escape, not an appended closer). -/
lemma escapeStars_odd (chunk : Str) (hodd : count_dbl chunk % 2 = 1) :
    ∃ k : ℕ, ((k : ℤ) = pyRfindDbl chunk) ∧
      chunk.get? k = some '*' ∧ chunk.get? (k + 1) = some '*' ∧
      (∀ j : ℕ, k < j →
        ¬(chunk.get? j = some '*' ∧ chunk.get? (j + 1) = some '*')) ∧
      ((k = 0 ∨ chunk.get? (k - 1) ≠ some '\\') →
        escapeStars chunk =
          chunk.take k ++ '\\' :: '*' :: '*' :: chunk.drop (k + 2) ∧
        (escapeStars chunk).length = chunk.length + 1) := by
  have hpos : 0 < count_dbl chunk := by omega
  obtain ⟨p, hp1, hp2⟩ := countDblGo_pos_match chunk sentinel hpos
  have hmax0 := pyRfindDblGo_max chunk 0 (-1) p hp1 hp2
  rcases pyRfindDblGo_sound chunk 0 (-1) with habs | ⟨q, hq, hq1, hq2⟩
  · exfalso
    unfold pyRfindDbl count_dbl at *
    rw [habs] at hmax0
    push_cast at hmax0
    omega
  · have hqval : pyRfindDbl chunk = (q : ℤ) := by
      unfold pyRfindDbl
      rw [hq]
      push_cast
      ring
    refine ⟨q, hqval.symm, hq1, hq2, ?_, ?_⟩
    · rintro j hj ⟨hj1, hj2⟩
      have hle := pyRfindDblGo_max chunk 0 (-1) j hj1 hj2
      rw [show pyRfindDblGo 0 (-1) chunk = pyRfindDbl chunk from rfl, hqval]
        at hle
      push_cast at hle
      omega
    · intro hguard
      have hqlen : q + 1 < chunk.length := (List.get?_eq_some.mp hq2).1
      have heq : escapeStars chunk =
          chunk.take q ++ '\\' :: '*' :: '*' :: chunk.drop (q + 2) := by
        unfold escapeStars
        rw [if_pos hodd]
        dsimp only
        rw [hqval]
        rw [if_pos ?_]
        · rw [Int.toNat_natCast]
        · constructor
          · intro hc
            have : (q : ℤ) = -1 := hc
            omega
          · rcases hguard with h0 | hprev
            · left
              rw [h0]
              rfl
            · right
              rw [Int.toNat_natCast]
              exact hprev
      refine ⟨heq, ?_⟩
      rw [heq]
      simp only [List.length_append, List.length_cons, List.length_take,
        List.length_drop]
      omega

/-- C3 (amended): over every chunk, `_neutralize_unbalanced` (1) closes
an odd fence count by appending the synthetic `"\n```"`, making the
fence count even; (2) closes an odd inline-backtick count by appending a
backtick; (3) neutralizes an odd `**` count by escaping the last `**` in
place (one inserted backslash, not an appended marker) unless that
occurrence is already escaped; (4) with even fence and backtick counts
it is exactly the star-escape followed by the trailing-backslash fix;
and (5) never leaves a frame ending in a single unescaped backslash. -/
theorem c3_repair_amended :
    (∀ chunk : Str, count_triple chunk % 2 = 1 →
      closeTriple chunk = chunk ++ '\n' :: [btk, btk, btk] ∧
      count_triple (closeTriple chunk) % 2 = 0) ∧
    (∀ chunk : Str, count_tick chunk % 2 = 1 →
      closeTick chunk = chunk ++ [btk]) ∧
    (∀ chunk : Str, count_dbl chunk % 2 = 1 →
      ∃ k : ℕ, ((k : ℤ) = pyRfindDbl chunk) ∧
        chunk.get? k = some '*' ∧ chunk.get? (k + 1) = some '*' ∧
        (∀ j : ℕ, k < j →
          ¬(chunk.get? j = some '*' ∧ chunk.get? (j + 1) = some '*')) ∧
        ((k = 0 ∨ chunk.get? (k - 1) ≠ some '\\') →
          escapeStars chunk =
            chunk.take k ++ '\\' :: '*' :: '*' :: chunk.drop (k + 2) ∧
          (escapeStars chunk).length = chunk.length + 1)) ∧
    (∀ chunk : Str, count_triple chunk % 2 = 0 → count_tick chunk % 2 = 0 →
      _neutralize_unbalanced chunk = fixTrailing (escapeStars chunk)) ∧
    (∀ chunk : Str,
      ¬(endsWith1 '\\' (_neutralize_unbalanced chunk) = true ∧
        ¬ endsWith2 '\\' '\\' (_neutralize_unbalanced chunk) = true)) := by
  refine ⟨?_, ?_, ?_, ?_, ?_⟩
  · intro chunk h
    have happ : closeTriple chunk = chunk ++ '\n' :: [btk, btk, btk] := by
      unfold closeTriple
      rw [if_pos h]
    refine ⟨happ, ?_⟩
    rw [happ, count_triple_append_fence]
    omega
  · intro chunk h
    unfold closeTick
    rw [if_pos h]
  · exact escapeStars_odd
  · intro chunk h1 h2
    have e1 : closeTriple chunk = chunk := by
      unfold closeTriple
      rw [if_neg (by omega)]
    have e2 : closeTick chunk = chunk := by
      unfold closeTick
      rw [if_neg (by omega)]
    unfold _neutralize_unbalanced
    rw [e1, e2]
  · intro chunk
    unfold _neutralize_unbalanced
    exact no_single_trailing _

/-- C3 witness: on `a**b` (even fence/backtick counts, odd `**` count)
the repair escapes the `**` in place rather than appending one. -/
theorem c3_repair_amended_witness :
    _neutralize_unbalanced ['a', '*', '*', 'b'] = ['a', '\\', '*', '*', 'b'] := by
  have h := c3_repair_amended.2.2.2.1 ['a', '*', '*', 'b'] (by decide) (by decide)
  rw [h]
  decide

/-! ## Theorems: splitting (C2) -/

lemma length_dropWhile_le' (p : Char → Bool) (l : Str) :
    (l.dropWhile p).length ≤ l.length := by
  induction l with
  | nil => simp
  | cons c rest ih =>
    simp only [List.dropWhile]
    split
    · exact le_trans ih (by simp)
    · simp

lemma length_take_le_self (n : ℕ) (l : Str) : (l.take n).length ≤ l.length := by
  simp only [List.length_take]
  exact min_le_right _ _

/-- `_avoid_digit_split` only moves text from the left part to the right
part: concatenation is preserved and the left part never grows. -/
lemma avoid_digit_split_spec (l r : Str) :
    (_avoid_digit_split l r).1 ++ (_avoid_digit_split l r).2 = l ++ r ∧
    (_avoid_digit_split l r).1.length ≤ l.length := by
  unfold _avoid_digit_split
  split
  · split_ifs
    · constructor
      · rw [← List.append_assoc]
        have h1 : (l.reverse.takeWhile (fun c => c.isDigit)) ++
            (l.reverse.dropWhile (fun c => c.isDigit)) = l.reverse :=
          List.takeWhile_append_dropWhile _ _
        have h2 : (l.reverse.dropWhile (fun c => c.isDigit)).reverse ++
            (l.reverse.takeWhile (fun c => c.isDigit)).reverse = l := by
          rw [← List.reverse_append, h1, List.reverse_reverse]
        rw [h2]
      · simp only [List.length_reverse]
        have := length_dropWhile_le' (fun c => c.isDigit) l.reverse
        simpa using this
    · exact ⟨rfl, le_refl _⟩
  · exact ⟨rfl, le_refl _⟩

/-- `_fix_boundary_inside_link` only moves text from the left part to the
right part. -/
lemma fix_boundary_link_spec (l r : Str) :
    (_fix_boundary_inside_link l r).1 ++ (_fix_boundary_inside_link l r).2 = l ++ r ∧
    (_fix_boundary_inside_link l r).1.length ≤ l.length := by
  unfold _fix_boundary_inside_link
  dsimp only
  split_ifs <;>
    first
    | exact ⟨by rw [← List.append_assoc, List.take_append_drop],
        length_take_le_self _ _⟩
    | exact ⟨rfl, le_refl _⟩

lemma pyRfindCharGo_stop (ch : Char) (i : ℕ) (best : ℤ) (l : Str) (e : ℕ)
    (h : e ≤ i) : pyRfindCharGo ch i best l e = best := by
  cases l with
  | nil => rfl
  | cons c rest => simp [pyRfindCharGo, Nat.not_lt.mpr h]

lemma pyRfindCharGo_append (ch : Char) (xs ys : Str) (e : ℕ) :
    ∀ (i : ℕ) (best : ℤ),
    pyRfindCharGo ch i best (xs ++ ys) e =
      pyRfindCharGo ch (i + xs.length) (pyRfindCharGo ch i best xs e) ys e := by
  induction xs with
  | nil => intro i best; simp [pyRfindCharGo]
  | cons c rest ih =>
    intro i best
    simp only [List.cons_append, pyRfindCharGo, List.append_eq]
    by_cases hi : i < e
    · rw [if_pos hi, if_pos hi, ih]
      have harith : i + 1 + rest.length = i + (c :: rest).length := by
        simp only [List.length_cons]; omega
      rw [harith]
    · rw [if_neg hi, if_neg hi, pyRfindCharGo_stop]
      omega

lemma pyRfindCharGo_not_mem (ch : Char) (l : Str) (e : ℕ)
    (h : ∀ c ∈ l, c ≠ ch) : ∀ (i : ℕ) (best : ℤ),
    pyRfindCharGo ch i best l e = best := by
  induction l with
  | nil => intro i best; rfl
  | cons c rest ih =>
    intro i best
    have hc : ¬(c = ch) := h c (by simp)
    simp only [pyRfindCharGo]
    by_cases hi : i < e
    · rw [if_pos hi, if_neg hc]
      exact ih (fun x hx => h x (by simp [hx])) _ _
    · rw [if_neg hi]

lemma pyRfindCharGo_le (ch : Char) (l : Str) (e : ℕ) : ∀ (i : ℕ) (best : ℤ),
    pyRfindCharGo ch i best l e ≤ max best ((e : ℤ) - 1) := by
  induction l with
  | nil => intro i best; simp [pyRfindCharGo]
  | cons c rest ih =>
    intro i best
    simp only [pyRfindCharGo]
    by_cases hi : i < e
    · rw [if_pos hi]
      refine le_trans (ih _ _) (max_le ?_ (le_max_right _ _))
      by_cases hc : c = ch
      · rw [if_pos hc]
        refine le_trans ?_ (le_max_right _ _)
        omega
      · rw [if_neg hc]
        exact le_max_left _ _
    · rw [if_neg hi]
      exact le_max_left _ _

lemma probeDown_le (s : Str) (n : ℕ) : probeDown s n ≤ n := by
  induction n with
  | zero => simp [probeDown]
  | succ k ih =>
    simp only [probeDown]
    split
    · exact le_refl _
    · omega

/-- The cut returned by `_find_safe_cut` never exceeds the limit. -/
lemma find_safe_cut_le (s : Str) (limit : ℕ) : _find_safe_cut s limit ≤ limit := by
  unfold _find_safe_cut
  dsimp only
  have he : min limit s.length ≤ limit := min_le_left _ _
  have hb : ∀ ch : Char,
      (pyRfindChar ch s (min limit s.length)).toNat ≤ min limit s.length := by
    intro ch
    have h := pyRfindCharGo_le ch s (min limit s.length) 0 (-1)
    simp only [pyRfindChar]
    rcases le_max_iff.mp h with h' | h' <;> omega
  have hmax : (max (pyRfindChar '\n' s (min limit s.length))
      (pyRfindChar ' ' s (min limit s.length))).toNat ≤ min limit s.length := by
    rcases max_cases (pyRfindChar '\n' s (min limit s.length))
      (pyRfindChar ' ' s (min limit s.length)) with ⟨heq, _⟩ | ⟨heq, _⟩ <;>
      rw [heq] <;> exact hb _
  split_ifs <;>
    first
    | exact he
    | · refine le_trans (probeDown_le _ _) ?_
        first
        | exact le_trans hmax he
        | (refine le_trans ?_ he; simp)

lemma closeTriple_len (c : Str) : (closeTriple c).length ≤ c.length + 4 := by
  unfold closeTriple
  split <;> simp

lemma closeTick_len (c : Str) : (closeTick c).length ≤ c.length + 1 := by
  unfold closeTick
  split <;> simp

lemma fixTrailing_len (c : Str) : (fixTrailing c).length ≤ c.length + 1 := by
  unfold fixTrailing
  split <;> simp

lemma pyRfindDblGo_le (l : Str) : ∀ (i : ℕ) (best : ℤ),
    pyRfindDblGo i best l ≤ max best ((i : ℤ) + l.length - 2) := by
  induction l with
  | nil => intro i best; simp [pyRfindDblGo]
  | cons a rest ih =>
    intro i best
    cases rest with
    | nil => simp [pyRfindDblGo]
    | cons b rest2 =>
      simp only [pyRfindDblGo]
      refine le_trans (ih _ _) (max_le ?_ ?_)
      · split_ifs
        · refine le_trans ?_ (le_max_right _ _)
          simp only [List.length_cons]
          push_cast
          omega
        · exact le_max_left _ _
      · refine le_trans ?_ (le_max_right _ _)
        simp only [List.length_cons]
        push_cast
        omega

lemma pyRfindDblGo_ge (l : Str) : ∀ (i : ℕ) (best : ℤ), -1 ≤ best →
    -1 ≤ pyRfindDblGo i best l := by
  induction l with
  | nil => intro i best h; simpa [pyRfindDblGo] using h
  | cons a rest ih =>
    intro i best h
    cases rest with
    | nil => simpa [pyRfindDblGo] using h
    | cons b rest2 =>
      simp only [pyRfindDblGo]
      refine ih _ _ ?_
      split_ifs
      · omega
      · exact h

lemma escapeStars_len (c : Str) : (escapeStars c).length ≤ c.length + 1 := by
  unfold escapeStars
  dsimp only
  split_ifs with h1 h2
  · have hub := pyRfindDblGo_le c 0 (-1)
    have hlb := pyRfindDblGo_ge c 0 (-1) (le_refl _)
    have hne : pyRfindDbl c ≠ -1 := h2.1
    simp only [pyRfindDbl] at hne
    simp only [List.length_append, List.length_take, List.length_cons,
      List.length_drop, pyRfindDbl]
    rcases le_max_iff.mp hub with hub' | hub' <;> push_cast at hub' <;> omega
  · exact Nat.le_succ _
  · exact Nat.le_succ _

/-- The per-frame repair appends or inserts at most 7 characters. -/
lemma neutralize_len (c : Str) :
    (_neutralize_unbalanced c).length ≤ c.length + 7 := by
  unfold _neutralize_unbalanced
  calc (fixTrailing (escapeStars (closeTick (closeTriple c)))).length
      ≤ (escapeStars (closeTick (closeTriple c))).length + 1 := fixTrailing_len _
    _ ≤ (closeTick (closeTriple c)).length + 2 := by
        have := escapeStars_len (closeTick (closeTriple c)); omega
    _ ≤ (closeTriple c).length + 3 := by
        have := closeTick_len (closeTriple c); omega
    _ ≤ c.length + 7 := by
        have := closeTriple_len c; omega

/-- One iteration of the splitting loop only redistributes text, and its
chunk is at most 4096 characters. -/
lemma splitStep_spec (rest : Str) :
    (splitStep rest).1 ++ (splitStep rest).2 = rest ∧
    (splitStep rest).1.length ≤ 4096 := by
  unfold splitStep
  dsimp only
  set cut := (if _find_safe_cut rest 4096 = 0 then 4096
    else _find_safe_cut rest 4096) with hcut
  have hcutle : cut ≤ 4096 := by
    rw [hcut]
    split_ifs with h0
    · exact le_refl _
    · exact find_safe_cut_le rest 4096
  have hsp1 := avoid_digit_split_spec (rest.take cut) (rest.drop cut)
  have hsp2 := fix_boundary_link_spec
    (_avoid_digit_split (rest.take cut) (rest.drop cut)).1
    (_avoid_digit_split (rest.take cut) (rest.drop cut)).2
  constructor
  · rw [hsp2.1, hsp1.1, List.take_append_drop]
  · refine le_trans hsp2.2 (le_trans hsp1.2 ?_)
    exact le_trans (List.length_take_le _ _) hcutle

/-- Invariants of the splitting loop: the pre-repair chunks concatenate
to the input and each is at most `MAX = 4096` characters. -/
lemma splitGo_props : ∀ (fuel : ℕ) (s : Str) (cs : List Str),
    splitGo fuel s = some cs →
    cs.flatten = s ∧ ∀ c ∈ cs, c.length ≤ 4096 := by
  intro fuel
  induction fuel with
  | zero => intro s cs h; simp [splitGo] at h
  | succ n ih =>
    intro s cs h
    simp only [splitGo] at h
    by_cases hnil : s = []
    · rw [if_pos hnil] at h
      simp only [Option.some.injEq] at h
      subst h
      simp [hnil]
    · rw [if_neg hnil] at h
      by_cases hlen : s.length ≤ 4096
      · rw [if_pos hlen] at h
        simp only [Option.some.injEq] at h
        subst h
        simpa using hlen
      · rw [if_neg hlen] at h
        rcases hrec : splitGo n (splitStep s).2 with _ | cs'
        · rw [hrec] at h
          simp at h
        · rw [hrec] at h
          simp only [Option.some.injEq] at h
          subst h
          obtain ⟨hjoin', hlen'⟩ := ih _ _ hrec
          obtain ⟨hstep1, hstep2⟩ := splitStep_spec s
          constructor
          · rw [List.flatten_cons, hjoin', hstep1]
          · intro c hc
            rcases List.mem_cons.mp hc with rfl | hc'
            · exact hstep2
            · exact hlen' c hc'

/-- C2 (amended): whenever the splitting loop terminates, the pre-repair
Frames concatenate exactly to the input text and none exceeds the 4096
ceiling; the per-Frame repair may add up to 7 characters, so a repaired
Frame stays within 4103 characters. -/
theorem c2_split_invariant (s : Str) (cs : List Str)
    (h : splitChunks s = some cs) :
    cs.flatten = s ∧ (∀ c ∈ cs, c.length ≤ 4096) ∧
    (∀ c ∈ cs, (_neutralize_unbalanced c).length ≤ 4103) := by
  obtain ⟨h1, h2⟩ := splitGo_props _ _ _ h
  refine ⟨h1, h2, fun c hc => ?_⟩
  have := neutralize_len c
  have := h2 c hc
  omega

/-- C2 witness: a one-character text splits into one frame. -/
theorem c2_split_invariant_witness :
    ([['a']] : List Str).flatten = ['a'] ∧ (∀ c ∈ [['a']], c.length ≤ 4096) ∧
    (∀ c ∈ ([['a']] : List Str), (_neutralize_unbalanced c).length ≤ 4103) :=
  c2_split_invariant ['a'] [['a']] (by decide)

/-! ### The C2 counterexample text: 4094 `a`s followed by `" `a``"` -/

lemma countTripleGo_zero : ∀ (l : Str), (∀ c ∈ l, c ≠ btk) → ∀ prev,
    countTripleGo prev l = 0 := by
  intro l
  induction l with
  | nil => intro _ _; rfl
  | cons c rest ih =>
    intro h prev
    have hc : c ≠ btk := h c (by simp)
    rcases rest with _ | ⟨b, _ | ⟨d, rest2⟩⟩
    · rfl
    · rfl
    · simp only [countTripleGo]
      rw [if_neg (fun hh => hc hh.2.1)]
      exact ih (fun x hx => h x (by simp [List.mem_cons] at hx ⊢; tauto)) c

lemma countTickGo_zero : ∀ (l : Str), (∀ c ∈ l, c ≠ btk) → ∀ prev,
    countTickGo prev l = 0 := by
  intro l
  induction l with
  | nil => intro _ _; rfl
  | cons c rest ih =>
    intro h prev
    have hc : c ≠ btk := h c (by simp)
    simp only [countTickGo]
    rw [if_neg (fun hh => hc hh.2), Nat.zero_add]
    exact ih (fun x hx => h x (by simp [hx])) c

lemma countDblGo_zero : ∀ (l : Str), (∀ c ∈ l, c ≠ '*') → ∀ prev,
    countDblGo prev l = 0 := by
  intro l
  induction l with
  | nil => intro _ _; rfl
  | cons c rest ih =>
    intro h prev
    have hc : c ≠ '*' := h c (by simp)
    rcases rest with _ | ⟨b, rest2⟩
    · rfl
    · simp only [countDblGo]
      rw [if_neg (fun hh => hc hh.2.1)]
      exact ih (fun x hx => h x (by simp [List.mem_cons] at hx ⊢; tauto)) c

lemma replicate_a_ne (ch : Char) (hch : ch ≠ 'a') (n : ℕ) :
    ∀ c ∈ List.replicate n 'a', c ≠ ch := by
  intro c hc
  rw [List.eq_of_mem_replicate hc]
  exact fun hh => hch hh.symm

/-- The repair leaves a pure run of `a`s untouched. -/
lemma neutralize_replicate_a (n : ℕ) :
    _neutralize_unbalanced (List.replicate n 'a') = List.replicate n 'a' := by
  have e1 : ¬(count_triple (List.replicate n 'a') % 2 = 1) := by
    rw [count_triple, countTripleGo_zero _ (replicate_a_ne btk (by decide) n)]
    decide
  have e2 : ¬(count_tick (List.replicate n 'a') % 2 = 1) := by
    rw [count_tick, countTickGo_zero _ (replicate_a_ne btk (by decide) n)]
    decide
  have e3 : ¬(count_dbl (List.replicate n 'a') % 2 = 1) := by
    rw [count_dbl, countDblGo_zero _ (replicate_a_ne '*' (by decide) n)]
    decide
  have hew : ¬(endsWith1 '\\' (List.replicate n 'a') = true ∧
      ¬ endsWith2 '\\' '\\' (List.replicate n 'a') = true) := by
    intro hh
    have := hh.1
    rw [endsWith1, List.reverse_replicate] at this
    rcases Nat.eq_zero_or_pos n with h0 | h0
    · subst h0; simp at this
    · rw [List.head?_replicate] at this
      rw [if_neg (by omega)] at this
      simp at this
  have s1 : closeTriple (List.replicate n 'a') = List.replicate n 'a' := by
    unfold closeTriple; rw [if_neg e1]
  have s2 : closeTick (List.replicate n 'a') = List.replicate n 'a' := by
    unfold closeTick; rw [if_neg e2]
  have s3 : escapeStars (List.replicate n 'a') = List.replicate n 'a' := by
    unfold escapeStars; rw [if_neg e3]
  have s4 : fixTrailing (List.replicate n 'a') = List.replicate n 'a' := by
    unfold fixTrailing; rw [if_neg hew]
  unfold _neutralize_unbalanced
  rw [s1, s2, s3, s4]

lemma avoid_digit_split_id (l r : Str)
    (h : ∀ lc, l.getLast? = some lc → lc.isDigit = false) :
    _avoid_digit_split l r = (l, r) := by
  unfold _avoid_digit_split
  cases hl : l.getLast? with
  | none => cases r.head? <;> rfl
  | some lc =>
    cases hr : r.head? with
    | none => rfl
    | some rc =>
      have hd : lc.isDigit = false := h lc hl
      dsimp only
      rw [if_neg (fun hh => by
        have h1 := hh.1
        rw [hd] at h1
        exact Bool.false_ne_true h1)]

lemma pyRfindCharAll_none (ch : Char) (s : Str) (h : ∀ c ∈ s, c ≠ ch) :
    pyRfindCharAll ch s = -1 := by
  unfold pyRfindCharAll pyRfindChar
  exact pyRfindCharGo_not_mem ch s _ h 0 (-1)

lemma probeDown_safe (s : Str) (n : ℕ) (h : _is_safe_cut s n = true)
    (hn : n ≠ 0) : probeDown s n = n := by
  cases n with
  | zero => exact absurd rfl hn
  | succ k => simp [probeDown, h]

lemma splitGo_small (fuel : ℕ) (s : Str) (hf : fuel ≠ 0)
    (h : s.length ≤ 4096) :
    splitGo fuel s = if s = [] then some [] else some [s] := by
  cases fuel with
  | zero => exact absurd rfl hf
  | succ k =>
    by_cases hs : s = []
    · simp [splitGo, hs]
    · simp [splitGo, hs, h]

lemma splitGo_step (fuel : ℕ) (s : Str) (hf : fuel ≠ 0)
    (h : ¬ s.length ≤ 4096) :
    splitGo fuel s = match splitGo (fuel - 1) (splitStep s).2 with
      | none => none
      | some cs => some ((splitStep s).1 :: cs) := by
  cases fuel with
  | zero => exact absurd rfl hf
  | succ k =>
    have hs : s ≠ [] := by
      intro hh
      rw [hh] at h
      simp at h
    simp only [splitGo, if_neg hs, if_neg h, Nat.add_sub_cancel]

/-- C2 (counterexample): splitting 4094 `a`s followed by `" `a``"` yields
a second repaired Frame `" `a```"` whose unescaped fence (triple-backtick)
count is odd — the appended backtick closed the inline count but created
a fence, violating the no-odd-marker-count invariant. -/
theorem c2_second_frame_odd_fence :
    sendFrames (List.replicate 4094 'a' ++ [' ', btk, 'a', btk, btk]) =
      some [List.replicate 4094 'a', [' ', btk, 'a', btk, btk, btk]] ∧
    count_triple [' ', btk, 'a', btk, btk, btk] % 2 = 1 := by
  have hAlen : (List.replicate 4094 'a').length = 4094 :=
    List.length_replicate 4094 'a'
  have hlen : (List.replicate 4094 'a' ++ [' ', btk, 'a', btk, btk]).length
      = 4099 := by
    rw [List.length_append, List.length_replicate]
    decide
  constructor
  · -- rfind over the text
    have hrfN : pyRfindChar '\n'
        (List.replicate 4094 'a' ++ [' ', btk, 'a', btk, btk]) 4096 = -1 := by
      rw [pyRfindChar, pyRfindCharGo_append,
        pyRfindCharGo_not_mem '\n' _ _ (replicate_a_ne '\n' (by decide) 4094),
        hAlen]
      decide
    have hrfS : pyRfindChar ' '
        (List.replicate 4094 'a' ++ [' ', btk, 'a', btk, btk]) 4096 = 4094 := by
      rw [pyRfindChar, pyRfindCharGo_append,
        pyRfindCharGo_not_mem ' ' _ _ (replicate_a_ne ' ' (by decide) 4094),
        hAlen]
      decide
    have htake : (List.replicate 4094 'a' ++ [' ', btk, 'a', btk, btk]).take 4094 =
        List.replicate 4094 'a' := List.take_left' hAlen
    have hdrop : (List.replicate 4094 'a' ++ [' ', btk, 'a', btk, btk]).drop 4094 =
        [' ', btk, 'a', btk, btk] := List.drop_left' hAlen
    have hget1 : (List.replicate 4094 'a' ++ [' ', btk, 'a', btk, btk]).get?
        (4094 - 1) = some 'a' := by
      have h93 : (4094 : ℕ) - 1 = 4093 := rfl
      rw [h93, List.get?_eq_getElem?, List.getElem?_append]
      rw [if_pos (by rw [hAlen]; decide)]
      rw [List.getElem?_replicate, if_pos (by decide)]
    have hget2 : (List.replicate 4094 'a' ++ [' ', btk, 'a', btk, btk]).get? 4094 =
        some ' ' := by
      rw [List.get?_eq_getElem?, List.getElem?_append_right (le_of_eq hAlen),
        hAlen]
      rfl
    have hct : count_triple (List.replicate 4094 'a') = 0 := by
      rw [count_triple, countTripleGo_zero _ (replicate_a_ne btk (by decide) 4094)]
    have hck : count_tick (List.replicate 4094 'a') = 0 := by
      rw [count_tick, countTickGo_zero _ (replicate_a_ne btk (by decide) 4094)]
    have hcd : count_dbl (List.replicate 4094 'a') = 0 := by
      rw [count_dbl, countDblGo_zero _ (replicate_a_ne '*' (by decide) 4094)]
    have hsafe : _is_safe_cut
        (List.replicate 4094 'a' ++ [' ', btk, 'a', btk, btk]) 4094 = true := by
      unfold _is_safe_cut
      rw [hlen, hget1, hget2, htake, hct, hck, hcd]
      decide
    have hfsc : _find_safe_cut
        (List.replicate 4094 'a' ++ [' ', btk, 'a', btk, btk]) 4096 = 4094 := by
      unfold _find_safe_cut
      dsimp only
      rw [hlen]
      rw [show min 4096 4099 = 4096 from by decide]
      rw [hrfN, hrfS]
      rw [if_neg (by decide : ¬((-1 : ℤ) = -1 ∧ (4094 : ℤ) = -1))]
      rw [show max (-1 : ℤ) 4094 = 4094 from by decide]
      rw [show Int.toNat 4094 = 4094 from rfl]
      rw [probeDown_safe _ _ hsafe (by decide)]
      decide
    have hstep : splitStep (List.replicate 4094 'a' ++ [' ', btk, 'a', btk, btk]) =
        (List.replicate 4094 'a', [' ', btk, 'a', btk, btk]) := by
      unfold splitStep
      dsimp only
      rw [hfsc]
      rw [if_neg (by decide : ¬(4094 = 0))]
      rw [htake, hdrop]
      rw [avoid_digit_split_id _ _ (by
        intro lc hl
        rw [List.getLast?_replicate, if_neg (by decide : ¬(4094 = 0))] at hl
        cases hl
        decide)]
      unfold _fix_boundary_inside_link
      dsimp only
      rw [pyRfindCharAll_none '[' _ (replicate_a_ne '[' (by decide) 4094),
        pyRfindCharAll_none ']' _ (replicate_a_ne ']' (by decide) 4094),
        pyRfindCharAll_none '(' _ (replicate_a_ne '(' (by decide) 4094),
        pyRfindCharAll_none ')' _ (replicate_a_ne ')' (by decide) 4094)]
      rw [if_neg (by decide : ¬((-1 : ℤ) < -1))]
      rw [if_neg (by decide :
        ¬((-1 : ℤ) ≠ -1 ∧ (-1 : ℤ) < -1 ∧ (-1 : ℤ) < -1))]
    unfold sendFrames splitChunks
    rw [hlen]
    rw [splitGo_step _ _ (by decide) (by rw [hlen]; decide)]
    rw [hstep]
    have hrec : splitGo (4099 + 1 - 1) ([' ', btk, 'a', btk, btk] : Str) =
        some [[' ', btk, 'a', btk, btk]] := by
      rw [splitGo_small _ _ (by decide) (by decide)]
      rw [if_neg (by decide : ¬([' ', btk, 'a', btk, btk] : Str) = [])]
    rw [hrec]
    simp only [List.map_cons, List.map_nil, Option.map_some']
    rw [neutralize_replicate_a]
    rw [show _neutralize_unbalanced [' ', btk, 'a', btk, btk] =
        [' ', btk, 'a', btk, btk, btk] from by decide]
  · decide

/-- C10: a 200 response with no rate-limit headers parses to the default
steady-state rate of 0.05 req/s, and `_respect_headers` then advances the
backend's next-eligible-time to at least 20 s (= 1/0.05) after the call. -/
theorem c10_headerless_success_paces (s : GovState) (m : Model) :
    (_parse_rate_headers ⟨none, none, none, none⟩).limit_rps = 5/100 ∧
    s.time + 20 ≤
      _get_next_ok (_respect_headers m ⟨none, none, none, none⟩ true s) m := by
  constructor
  · rfl
  · have hc : (⌈(1 / (5/100 : ℚ))⌉ : ℚ) = 20 := by norm_num
    have hdelay : (max ((⌈(1 / (5/100 : ℚ))⌉ : ℚ) + 1/2)
        ((Option.none : Option ℚ).getD 0)) = 41/2 := by
      rw [hc]; norm_num
    unfold _respect_headers _parse_rate_headers
    simp only [Option.getD_none, Option.getD_some]
    norm_num
    simp only [_get_next_ok, setNextOk, if_pos rfl, Option.getD_some]
    have h1 : s.time + 20 ≤ s.time + 41/2 := by linarith
    exact le_trans h1 (le_max_right _ _)

/-! ## C5 / C6: debounce invariant and flush behaviour -/

theorem liveCount_le_one (s : BotState) (hok : TimersOK s) (c : ℕ) :
    liveCount s c ≤ 1 := by
  obtain ⟨-, hpw, htr⟩ := hok
  unfold liveCount
  have hpw2 : (s.timers.filter
      (fun t => decide (t.chat = c) && !t.removed && !t.fired)).Pairwise
      (fun a b => a.tid ≠ b.tid) :=
    hpw.sublist (List.filter_sublist _)
  set l := s.timers.filter (fun t => decide (t.chat = c) && !t.removed && !t.fired)
    with hl
  match hml : l with
  | [] => simp
  | [x] => simp
  | x :: y :: tl =>
    exfalso
    have hx : x ∈ s.timers.filter
        (fun t => decide (t.chat = c) && !t.removed && !t.fired) := by
      rw [← hl]; exact List.mem_cons_self _ _
    have hy : y ∈ s.timers.filter
        (fun t => decide (t.chat = c) && !t.removed && !t.fired) := by
      rw [← hl]; exact List.mem_cons_of_mem _ (List.mem_cons_self _ _)
    rw [List.mem_filter] at hx hy
    obtain ⟨hxm, hxp⟩ := hx
    obtain ⟨hym, hyp⟩ := hy
    simp only [Bool.and_eq_true, Bool.not_eq_true', decide_eq_true_eq] at hxp hyp
    have htx := htr x hxm hxp.1.2 hxp.2
    have hty := htr y hym hyp.1.2 hyp.2
    rw [hxp.1.1] at htx
    rw [hyp.1.1] at hty
    have hne : x.tid ≠ y.tid :=
      (List.pairwise_cons.mp hpw2).1 y (List.mem_cons_self _ _)
    rw [htx] at hty
    exact hne (Option.some.inj hty)

theorem handle_ok (chat : ℕ) (text : String) (upd : ℕ) (s : BotState)
    (h : TimersOK s) : TimersOK (handle_message chat text upd s) := by
  obtain ⟨hid, hpw, htr⟩ := h
  unfold handle_message TimersOK
  dsimp only
  cases htrk : s.user_job_trackers chat with
  | none =>
    refine ⟨?_, ?_, ?_⟩
    · intro t ht
      rcases List.mem_append.mp ht with hin | hnew
      · exact Nat.lt_succ_of_lt (hid t hin)
      · rw [List.mem_singleton.mp hnew]
        exact Nat.lt_succ_self _
    · refine List.pairwise_append.mpr ⟨hpw, List.pairwise_singleton _ _, ?_⟩
      intro a ha b hb
      rw [List.mem_singleton.mp hb]
      exact Nat.ne_of_lt (hid a ha)
    · intro t ht hrm hfd
      rcases List.mem_append.mp ht with hin | hnew
      · have hold := htr t hin hrm hfd
        by_cases hc : t.chat = chat
        · rw [hc, htrk] at hold; exact absurd hold (by simp)
        · rw [if_neg hc]; exact hold
      · rw [List.mem_singleton.mp hnew]
        simp
  | some tid0 =>
    have hft : ∀ t : TimerRec,
        (if t.tid = tid0 then { t with removed := true } else t).tid = t.tid := by
      intro t; split <;> rfl
    refine ⟨?_, ?_, ?_⟩
    · intro t ht
      rcases List.mem_append.mp ht with hin | hnew
      · obtain ⟨t0, ht0, rfl⟩ := List.mem_map.mp hin
        rw [hft]
        exact Nat.lt_succ_of_lt (hid t0 ht0)
      · rw [List.mem_singleton.mp hnew]
        exact Nat.lt_succ_self _
    · refine List.pairwise_append.mpr
        ⟨hpw.map _ (fun a b hab => by rw [hft, hft]; exact hab),
         List.pairwise_singleton _ _, ?_⟩
      intro a ha b hb
      rw [List.mem_singleton.mp hb]
      obtain ⟨a0, ha0, rfl⟩ := List.mem_map.mp ha
      rw [hft]
      exact Nat.ne_of_lt (hid a0 ha0)
    · intro t ht hrm hfd
      rcases List.mem_append.mp ht with hin | hnew
      · obtain ⟨t0, ht0, rfl⟩ := List.mem_map.mp hin
        by_cases h0 : t0.tid = tid0
        · rw [if_pos h0] at hrm
          exact absurd hrm (by simp)
        · rw [if_neg h0] at hrm hfd ⊢
          have hold := htr t0 ht0 hrm hfd
          by_cases hc : t0.chat = chat
          · rw [hc, htrk] at hold
            exact absurd (Option.some.inj hold).symm h0
          · rw [if_neg hc]; exact hold
      · rw [List.mem_singleton.mp hnew]
        simp

theorem process_fields (chat : ℕ) (s : BotState) :
    (process_buffered_messages chat s).timers = s.timers ∧
    (process_buffered_messages chat s).nextTimerId = s.nextTimerId ∧
    (process_buffered_messages chat s).user_job_trackers =
      fun c => if c = chat then none else s.user_job_trackers c := by
  unfold process_buffered_messages
  dsimp only
  split_ifs <;> exact ⟨rfl, rfl, rfl⟩

theorem fireTimer_ok (s : BotState) (t : TimerRec) (ht : t ∈ s.timers)
    (h : TimersOK s) : TimersOK (fireTimer s t) := by
  obtain ⟨hid, hpw, htr⟩ := h
  unfold fireTimer
  split_ifs with hlive
  · exact ⟨hid, hpw, htr⟩
  · push_neg at hlive
    simp only [Bool.not_eq_true] at hlive
    have hft : ∀ u : TimerRec,
        (if u.tid = t.tid then { u with fired := true } else u).tid = u.tid := by
      intro u; split <;> rfl
    set s1 : BotState := { s with
      timers := s.timers.map (fun u =>
        if u.tid = t.tid then { u with fired := true } else u) } with hs1
    obtain ⟨htm, hnx, htk⟩ := process_fields t.chat s1
    refine ⟨?_, ?_, ?_⟩
    · rw [htm, hnx]
      intro u hu
      obtain ⟨u0, hu0, rfl⟩ := List.mem_map.mp hu
      rw [hft]
      exact hid u0 hu0
    · rw [htm]
      exact hpw.map _ (fun a b hab => by rw [hft, hft]; exact hab)
    · rw [htm, htk]
      intro u hu hrm hfd
      obtain ⟨u0, hu0, rfl⟩ := List.mem_map.mp hu
      by_cases h0 : u0.tid = t.tid
      · rw [if_pos h0] at hfd
        exact absurd hfd (by simp)
      · rw [if_neg h0] at hrm hfd ⊢
        have hold := htr u0 hu0 hrm hfd
        by_cases hc : u0.chat = t.chat
        · have htt := htr t ht hlive.1 hlive.2
          rw [hc, htt] at hold
          exact absurd (Option.some.inj hold).symm h0
        · simp only [if_neg hc]
          exact hold

theorem fireDue_ok (fuel upTo : ℕ) : ∀ s : BotState,
    TimersOK s → TimersOK (fireDue fuel upTo s) := by
  induction fuel with
  | zero => intro s h; exact h
  | succ n ih =>
    intro s h
    unfold fireDue
    cases hf : findDue s.timers upTo with
    | none => exact h
    | some t =>
      exact ih _ (fireTimer_ok s t (List.mem_of_find?_eq_some hf) h)

theorem stepArrival_ok (a : Arrival) (s : BotState) (h : TimersOK s) :
    TimersOK (stepArrival s a) := by
  unfold stepArrival
  dsimp only
  exact handle_ok _ _ _ _ (fireDue_ok _ _ _ h)

theorem init_ok : TimersOK initBot := by
  refine ⟨?_, ?_, ?_⟩ <;> simp [initBot]

theorem runTrace_ok (evs : List Arrival) : ∀ s : BotState,
    TimersOK s → TimersOK (runTrace evs s) := by
  induction evs with
  | nil => intro s h; exact h
  | cons a as ih =>
    intro s h
    have : runTrace (a :: as) s = runTrace as (stepArrival s a) := rfl
    rw [this]
    exact ih _ (stepArrival_ok a s h)

set_option maxRecDepth 20000 in
/-- C5: every reachable state has at most one live debounce timer per
chat (cancel-then-replace), and the 100-inputs-10-ms-apart burst yields
exactly one queued Job carrying the joined text. -/
theorem c5_debounce_single_timer :
    (∀ (evs : List Arrival) (c : ℕ), liveCount (runTrace evs initBot) c ≤ 1) ∧
    (runToQuiescence (runTrace burst100 initBot)).queuedJobs =
      [(1, 1, String.intercalate " " (List.replicate 100 "hi"))] := by
  constructor
  · intro evs c
    exact liveCount_le_one _ (runTrace_ok evs initBot init_ok) c
  · decide

/-- C6: flushing a chat with buffered fragments and a stored update
clears buffer, update and tracker, joins the fragments with a single
space, and either (joined length > 12000) sends the too-long advisory
and queues nothing, or (otherwise) queues exactly one envelope with the
mode's priority and the joined text. -/
theorem c6_flush_behavior (s : BotState) (chat : ℕ)
    (hb : s.user_message_buffers chat ≠ [])
    (hu : s.user_last_update chat ≠ none) :
    (process_buffered_messages chat s).user_message_buffers chat = [] ∧
    (process_buffered_messages chat s).user_last_update chat = none ∧
    (process_buffered_messages chat s).user_job_trackers chat = none ∧
    ((String.intercalate " " (s.user_message_buffers chat)).length > 12000 →
      (process_buffered_messages chat s).sentMessages =
        s.sentMessages ++ [(chat, "error_message_too_long")] ∧
      (process_buffered_messages chat s).queuedJobs = s.queuedJobs) ∧
    (¬ (String.intercalate " " (s.user_message_buffers chat)).length > 12000 →
      (process_buffered_messages chat s).queuedJobs =
        s.queuedJobs ++ [(modePriority (s.mode chat), chat,
          String.intercalate " " (s.user_message_buffers chat))] ∧
      (process_buffered_messages chat s).sentMessages = s.sentMessages) := by
  unfold process_buffered_messages
  dsimp only
  rw [if_neg (by push_neg; exact ⟨hb, hu⟩)]
  by_cases hlen :
      (String.intercalate " " (s.user_message_buffers chat)).length > 12000
  · rw [if_pos hlen]
    exact ⟨by simp, by simp, by simp, fun _ => ⟨rfl, rfl⟩,
      fun hcon => absurd hlen hcon⟩
  · rw [if_neg hlen]
    exact ⟨by simp, by simp, by simp, fun hcon => absurd hcon hlen,
      fun _ => ⟨rfl, rfl⟩⟩

/-- Witness for C6 at a concrete state. -/
theorem c6_flush_behavior_witness :
    (process_buffered_messages 7 c6state).user_message_buffers 7 = [] ∧
    (process_buffered_messages 7 c6state).user_last_update 7 = none ∧
    (process_buffered_messages 7 c6state).user_job_trackers 7 = none ∧
    ((String.intercalate " " (c6state.user_message_buffers 7)).length > 12000 →
      (process_buffered_messages 7 c6state).sentMessages =
        c6state.sentMessages ++ [(7, "error_message_too_long")] ∧
      (process_buffered_messages 7 c6state).queuedJobs = c6state.queuedJobs) ∧
    (¬ (String.intercalate " " (c6state.user_message_buffers 7)).length > 12000 →
      (process_buffered_messages 7 c6state).queuedJobs =
        c6state.queuedJobs ++ [(modePriority (c6state.mode 7), 7,
          String.intercalate " " (c6state.user_message_buffers 7))] ∧
      (process_buffered_messages 7 c6state).sentMessages =
        c6state.sentMessages) :=
  c6_flush_behavior c6state 7 (by decide) (by decide)

/-! ## C9: code-block extraction -/

theorem takeWhile_append_all (p : Char → Bool) :
    ∀ (xs : Str) (y : Char) (ys : Str), (∀ x ∈ xs, p x = true) → p y = false →
      (xs ++ y :: ys).takeWhile p = xs ∧ (xs ++ y :: ys).dropWhile p = y :: ys := by
  intro xs
  induction xs with
  | nil =>
    intro y ys _ hy
    constructor
    · simp [List.takeWhile_cons, hy]
    · simp [List.dropWhile_cons, hy]
  | cons x xs ih =>
    intro y ys hall hy
    have hx := hall x (List.mem_cons_self _ _)
    have ihr := ih y ys (fun a ha => hall a (List.mem_cons_of_mem _ ha)) hy
    constructor
    · simp [List.takeWhile_cons, hx, ihr.1]
    · simp [List.dropWhile_cons, hx, ihr.2]

theorem findClose_clean : ∀ code : Str, (∀ c ∈ code, c ≠ btk) → ∀ post : Str,
    findClose (code ++ '\n' :: btk :: btk :: btk :: post) = some (code, post) := by
  intro code
  induction code with
  | nil => intro _ post; rfl
  | cons c rest ih =>
    intro hcl post
    have hrest := ih (fun a ha => hcl a (List.mem_cons_of_mem _ ha)) post
    show findClose (c :: (rest ++ '\n' :: btk :: btk :: btk :: post)) = _
    unfold findClose
    rw [if_neg, hrest]
    rintro ⟨-, htake⟩
    match rest, hcl with
    | [], hcl =>
      have hx : (([] : Str) ++ '\n' :: btk :: btk :: btk :: post).take 3
          = ['\n', btk, btk] := rfl
      have hq := hx.symm.trans htake
      injection hq with h1 _
      exact absurd h1 (by decide)
    | [a], hcl =>
      have hx : (([a] : Str) ++ '\n' :: btk :: btk :: btk :: post).take 3
          = [a, '\n', btk] := rfl
      have hq := hx.symm.trans htake
      injection hq with _ h2
      injection h2 with h3 _
      exact absurd h3 (by decide)
    | [a, b], hcl =>
      have hx : (([a, b] : Str) ++ '\n' :: btk :: btk :: btk :: post).take 3
          = [a, b, '\n'] := rfl
      have hq := hx.symm.trans htake
      injection hq with _ h2
      injection h2 with _ h3
      injection h3 with h4 _
      exact absurd h4 (by decide)
    | a :: b :: d :: rest3, hcl =>
      have hx : ((a :: b :: d :: rest3 : Str)
          ++ '\n' :: btk :: btk :: btk :: post).take 3 = [a, b, d] := rfl
      have hq := hx.symm.trans htake
      injection hq with h1 _
      exact hcl a (by simp) h1

theorem blockMatchAt_block (lang code post : Str)
    (hlang : ∀ c ∈ lang, isLangChar c = true) (hcode : ∀ c ∈ code, c ≠ btk) :
    blockMatchAt (btk :: btk :: btk ::
        (lang ++ '\n' :: (code ++ '\n' :: btk :: btk :: btk :: post)))
      = some (lang, code, post) := by
  obtain ⟨htw, hdw⟩ := takeWhile_append_all isLangChar lang '\n'
      (code ++ '\n' :: btk :: btk :: btk :: post) hlang (by decide)
  unfold blockMatchAt
  dsimp only
  rw [if_pos ⟨rfl, rfl, rfl⟩, hdw]
  dsimp only
  rw [if_pos rfl, findClose_clean code hcode post]
  dsimp only
  rw [htw]

theorem blockMatchAt_none (c : Char) (rest : Str) (hc : c ≠ btk) :
    blockMatchAt (c :: rest) = none := by
  match rest with
  | [] => rfl
  | [a] => rfl
  | a :: b :: rest2 =>
    unfold blockMatchAt
    dsimp only
    rw [if_neg (show ¬(c = btk ∧ a = btk ∧ b = btk) from fun h => hc h.1)]

theorem extractGoF_clean : ∀ (fuel : ℕ) (s : Str), s.length < fuel →
    (∀ c ∈ s, c ≠ btk) → extractGoF fuel s = (s, []) := by
  intro fuel
  induction fuel with
  | zero => intro s hl; omega
  | succ n ih =>
    intro s hl hcl
    match s with
    | [] => rfl
    | c :: rest =>
      unfold extractGoF
      rw [blockMatchAt_none c rest (hcl c (List.mem_cons_self _ _))]
      dsimp only
      rw [ih rest (by simp at hl; omega)
        (fun a ha => hcl a (List.mem_cons_of_mem _ ha))]

theorem extractGoF_block (lang code post : Str)
    (hlang : ∀ c ∈ lang, isLangChar c = true) (hcode : ∀ c ∈ code, c ≠ btk)
    (hpost : ∀ c ∈ post, c ≠ btk) :
    ∀ (pre : Str) (fuel : ℕ),
      (pre ++ btk :: btk :: btk ::
        (lang ++ '\n' :: (code ++ '\n' :: btk :: btk :: btk :: post))).length < fuel →
      (∀ c ∈ pre, c ≠ btk) →
      extractGoF fuel (pre ++ btk :: btk :: btk ::
          (lang ++ '\n' :: (code ++ '\n' :: btk :: btk :: btk :: post)))
        = if code.length < 2000 then
            (pre ++ btk :: btk :: btk ::
              (lang ++ '\n' :: (code ++ '\n' :: btk :: btk :: btk :: post)), [])
          else (pre ++ placeholder ++ post, [(_guess_ext lang, code)]) := by
  intro pre
  induction pre with
  | nil =>
    intro fuel hl _
    match fuel, hl with
    | n + 1, hl =>
      simp only [List.nil_append] at hl ⊢
      unfold extractGoF
      rw [blockMatchAt_block lang code post hlang hcode]
      dsimp only
      have hlen : post.length < n := by
        simp only [List.length_cons, List.length_append] at hl
        omega
      rw [extractGoF_clean n post hlen hpost]
  | cons c pre' ih =>
    intro fuel hl hcl
    match fuel, hl with
    | n + 1, hl =>
      show extractGoF (n + 1) (c :: (pre' ++ _)) = _
      unfold extractGoF
      rw [blockMatchAt_none c _ (hcl c (List.mem_cons_self _ _))]
      dsimp only
      rw [ih n (by simp only [List.length_cons, List.cons_append] at hl; omega)
        (fun a ha => hcl a (List.mem_cons_of_mem _ ha))]
      by_cases hth : code.length < 2000
      · rw [if_pos hth, if_pos hth]
        rfl
      · rw [if_neg hth, if_neg hth]
        rfl

/-- C9: a fenced code block with a body of at least 2000 characters is
extracted as exactly one attachment `(extension, code)` and replaced
in-line by the fixed 13-character placeholder; a block under the
threshold leaves the text unchanged with no attachment.  The hypotheses
say the surrounding text and the body contain no backtick and the
language tag matches the fence's character class. -/
theorem c9_code_extraction (pre lang code post : Str)
    (hpre : ∀ c ∈ pre, c ≠ btk) (hlang : ∀ c ∈ lang, isLangChar c = true)
    (hcode : ∀ c ∈ code, c ≠ btk) (hpost : ∀ c ∈ post, c ≠ btk) :
    (2000 ≤ code.length →
      _extract_code_to_files (pre ++ btk :: btk :: btk ::
          (lang ++ '\n' :: (code ++ '\n' :: btk :: btk :: btk :: post)))
        = (pre ++ placeholder ++ post, [(_guess_ext lang, code)])) ∧
    (code.length < 2000 →
      _extract_code_to_files (pre ++ btk :: btk :: btk ::
          (lang ++ '\n' :: (code ++ '\n' :: btk :: btk :: btk :: post)))
        = (pre ++ btk :: btk :: btk ::
            (lang ++ '\n' :: (code ++ '\n' :: btk :: btk :: btk :: post)), [])) ∧
    placeholder.length = 13 := by
  have hB := extractGoF_block lang code post hlang hcode hpost pre
    ((pre ++ btk :: btk :: btk ::
      (lang ++ '\n' :: (code ++ '\n' :: btk :: btk :: btk :: post))).length + 1)
    (Nat.lt_succ_self _) hpre
  refine ⟨fun hth => ?_, fun hth => ?_, rfl⟩
  · unfold _extract_code_to_files
    rw [hB, if_neg (by omega)]
  · unfold _extract_code_to_files
    rw [hB, if_pos hth]

/-! ## C8: plain-text fallback -/

theorem splitNL_nl (x : Str) : splitNL ('\n' :: x) = [] :: splitNL x := by
  simp [splitNL]

theorem splitNL_cons_ne (c : Char) (x : Str) (hc : c ≠ '\n') :
    splitNL (c :: x) = (c :: (splitNL x).headI) :: (splitNL x).tail := by
  simp [splitNL, hc]

theorem splitNL_ne_nil : ∀ s : Str, splitNL s ≠ [] := by
  intro s
  match s with
  | [] => simp [splitNL]
  | c :: rest =>
    by_cases hc : c = '\n'
    · subst hc; rw [splitNL_nl]; simp
    · rw [splitNL_cons_ne _ _ hc]; simp

theorem splitNL_no_nl : ∀ (s l : Str), l ∈ splitNL s → ∀ c ∈ l, c ≠ '\n' := by
  intro s
  induction s with
  | nil =>
    intro l hl c hc
    simp [splitNL] at hl
    subst hl
    simp at hc
  | cons d rest ih =>
    intro l hl c hc
    by_cases hd : d = '\n'
    · subst hd
      rw [splitNL_nl] at hl
      rcases List.mem_cons.mp hl with rfl | hl2
      · simp at hc
      · exact ih l hl2 c hc
    · rw [splitNL_cons_ne _ _ hd] at hl
      obtain ⟨h1, t1, hht⟩ := List.exists_cons_of_ne_nil (splitNL_ne_nil rest)
      rw [hht] at hl
      simp only [List.headI_cons, List.tail_cons] at hl
      rcases List.mem_cons.mp hl with rfl | hl2
      · rcases List.mem_cons.mp hc with rfl | hc2
        · exact hd
        · have hh : h1 ∈ splitNL rest := by
            rw [hht]; exact List.mem_cons_self _ _
          exact ih h1 hh c hc2
      · have hmem : l ∈ splitNL rest := by
          rw [hht]; exact List.mem_cons_of_mem _ hl2
        exact ih l hmem c hc

theorem joinNL_splitNL : ∀ s : Str, joinNL (splitNL s) = s := by
  intro s
  induction s with
  | nil => rfl
  | cons d rest ih =>
    obtain ⟨h1, t1, hht⟩ := List.exists_cons_of_ne_nil (splitNL_ne_nil rest)
    by_cases hd : d = '\n'
    · subst hd
      rw [splitNL_nl, hht]
      show joinNL ([] :: h1 :: t1) = '\n' :: rest
      rw [show joinNL ([] :: h1 :: t1) = [] ++ '\n' :: joinNL (h1 :: t1) from rfl]
      rw [List.nil_append, ← hht, ih]
    · rw [splitNL_cons_ne _ _ hd, hht]
      simp only [List.headI_cons, List.tail_cons]
      match t1, hht with
      | [], hht =>
        have hrest : h1 = rest := by rw [hht] at ih; exact ih
        rw [show joinNL [d :: h1] = d :: h1 from rfl, hrest]
      | t2 :: ts, hht =>
        rw [show joinNL ((d :: h1) :: t2 :: ts)
          = (d :: h1) ++ '\n' :: joinNL (t2 :: ts) from rfl]
        rw [hht] at ih
        rw [show joinNL (h1 :: t2 :: ts) = h1 ++ '\n' :: joinNL (t2 :: ts) from rfl]
          at ih
        rw [List.cons_append, ih]

theorem splitNL_single : ∀ l : Str, (∀ c ∈ l, c ≠ '\n') → splitNL l = [l] := by
  intro l
  induction l with
  | nil => intro _; rfl
  | cons c l' ih =>
    intro h
    rw [splitNL_cons_ne _ _ (h c (List.mem_cons_self _ _)),
      ih (fun a ha => h a (List.mem_cons_of_mem _ ha))]
    rfl

theorem splitNL_append_nl : ∀ (l x : Str), (∀ c ∈ l, c ≠ '\n') →
    splitNL (l ++ '\n' :: x) = l :: splitNL x := by
  intro l
  induction l with
  | nil => intro x _; rw [List.nil_append, splitNL_nl]
  | cons c l' ih =>
    intro x h
    rw [List.cons_append, splitNL_cons_ne _ _ (h c (List.mem_cons_self _ _)),
      ih x (fun a ha => h a (List.mem_cons_of_mem _ ha))]
    rfl

theorem splitNL_joinNL : ∀ ls : List Str, ls ≠ [] →
    (∀ l ∈ ls, ∀ c ∈ l, c ≠ '\n') → splitNL (joinNL ls) = ls := by
  intro ls
  induction ls with
  | nil => intro h; exact absurd rfl h
  | cons l ls' ih =>
    intro _ h
    cases ls' with
    | nil =>
      show splitNL (joinNL [l]) = [l]
      rw [show joinNL [l] = l from rfl]
      exact splitNL_single l (h l (List.mem_cons_self _ _))
    | cons l2 ls2 =>
      show splitNL (joinNL (l :: l2 :: ls2)) = l :: l2 :: ls2
      rw [show joinNL (l :: l2 :: ls2) = l ++ '\n' :: joinNL (l2 :: ls2) from rfl]
      rw [splitNL_append_nl l _ (h l (List.mem_cons_self _ _))]
      rw [ih (by simp) (fun m hm => h m (List.mem_cons_of_mem _ hm))]

theorem dropLit_sublist : ∀ (lit s r : Str), dropLit lit s = some r → r.Sublist s := by
  intro lit
  induction lit with
  | nil =>
    intro s r h
    have hs := Option.some.inj h
    subst hs
    exact List.Sublist.refl _
  | cons c cs ih =>
    intro s r h
    match s with
    | [] => exact absurd h (by simp [dropLit])
    | x :: xs =>
      unfold dropLit at h
      split_ifs at h with hx
      exact (ih xs r h).cons x

theorem dropWhile_sublist' (p : Char → Bool) : ∀ l : Str, (l.dropWhile p).Sublist l := by
  intro l
  induction l with
  | nil => simp
  | cons a l ih =>
    rw [List.dropWhile_cons]
    split_ifs
    · exact ih.cons a
    · exact List.Sublist.refl _

theorem urlMatchAt_sublist (s r : Str) (h : urlMatchAt s = some r) : r.Sublist s := by
  match s with
  | [] => exact absurd h (by simp [urlMatchAt])
  | c :: rest =>
    unfold urlMatchAt at h
    dsimp only at h
    split_ifs at h with hc
    · cases h1 : dropLit ['h', 't', 't', 'p'] rest with
      | none => rw [h1] at h; exact absurd h (by simp)
      | some r1 =>
        rw [h1] at h
        dsimp only at h
        have hr1 : r1.Sublist rest := dropLit_sublist _ _ _ h1
        cases h2 : (match dropLit ['s', ':', '/', '/'] r1 with
                    | some r => some r
                    | none => dropLit [':', '/', '/'] r1) with
        | none => rw [h2] at h; exact absurd h (by simp)
        | some r2 =>
          rw [h2] at h
          have hr2 : r2.Sublist r1 := by
            cases hA : dropLit ['s', ':', '/', '/'] r1 with
            | some rA =>
              rw [hA] at h2
              have := Option.some.inj h2
              subst this
              exact dropLit_sublist _ _ _ hA
            | none =>
              rw [hA] at h2
              dsimp only at h2
              exact dropLit_sublist _ _ _ h2
          dsimp only at h
          split_ifs at h with hbody
          cases h3 : List.dropWhile urlBodyChar r2 with
          | nil => rw [h3] at h; exact absurd h (by simp)
          | cons c2 r4 =>
            rw [h3] at h
            dsimp only at h
            split_ifs at h with hc2
            have hr := Option.some.inj h
            subst hr
            have hs1 : r4.Sublist (c2 :: r4) := (List.Sublist.refl r4).cons c2
            have hs2 : (c2 :: r4).Sublist r2 := by
              rw [← h3]; exact dropWhile_sublist' _ _
            exact (((hs1.trans hs2).trans hr2).trans hr1).cons c

theorem mem_remUrlsF : ∀ (fuel : ℕ) (s : Str) (c : Char),
    c ∈ remUrlsF fuel s → c ∈ s := by
  intro fuel
  induction fuel with
  | zero =>
    intro s c h
    match s with
    | [] => exact h
    | x :: rest => exact h
  | succ n ih =>
    intro s c h
    match s with
    | [] => exact absurd h (by simp [remUrlsF])
    | x :: rest =>
      unfold remUrlsF at h
      cases hm : urlMatchAt (x :: rest) with
      | some after =>
        rw [hm] at h
        exact (urlMatchAt_sublist _ _ hm).subset (ih after c h)
      | none =>
        rw [hm] at h
        dsimp only at h
        rcases List.mem_cons.mp h with rfl | h2
        · exact List.mem_cons_self _ _
        · exact List.mem_cons_of_mem _ (ih rest c h2)

theorem mem_splitNL : ∀ (s l : Str), l ∈ splitNL s → ∀ c ∈ l, c ∈ s := by
  intro s
  induction s with
  | nil =>
    intro l hl c hc
    simp [splitNL] at hl
    subst hl
    simp at hc
  | cons d rest ih =>
    intro l hl c hc
    by_cases hd : d = '\n'
    · subst hd
      rw [splitNL_nl] at hl
      rcases List.mem_cons.mp hl with rfl | hl2
      · simp at hc
      · exact List.mem_cons_of_mem _ (ih l hl2 c hc)
    · rw [splitNL_cons_ne _ _ hd] at hl
      obtain ⟨h1, t1, hht⟩ := List.exists_cons_of_ne_nil (splitNL_ne_nil rest)
      rw [hht] at hl
      simp only [List.headI_cons, List.tail_cons] at hl
      rcases List.mem_cons.mp hl with rfl | hl2
      · rcases List.mem_cons.mp hc with rfl | hc2
        · exact List.mem_cons_self _ _
        · have hh : h1 ∈ splitNL rest := by
            rw [hht]; exact List.mem_cons_self _ _
          exact List.mem_cons_of_mem _ (ih h1 hh c hc2)
      · have hmem : l ∈ splitNL rest := by
          rw [hht]; exact List.mem_cons_of_mem _ hl2
        exact List.mem_cons_of_mem _ (ih l hmem c hc)

theorem mem_joinNL : ∀ (ls : List Str) (c : Char), c ∈ joinNL ls →
    c = '\n' ∨ ∃ l ∈ ls, c ∈ l := by
  intro ls
  induction ls with
  | nil => intro c h; exact absurd h (by simp [joinNL])
  | cons l ls' ih =>
    intro c h
    cases ls' with
    | nil => exact Or.inr ⟨l, List.mem_cons_self _ _, h⟩
    | cons l2 ls2 =>
      have h' : c ∈ l ++ '\n' :: joinNL (l2 :: ls2) := h
      rcases List.mem_append.mp h' with h1 | h2
      · exact Or.inr ⟨l, List.mem_cons_self _ _, h1⟩
      · rcases List.mem_cons.mp h2 with rfl | h3
        · exact Or.inl rfl
        · rcases ih c h3 with hnl | ⟨m, hm, hcm⟩
          · exact Or.inl hnl
          · exact Or.inr ⟨m, List.mem_cons_of_mem _ hm, hcm⟩

theorem collapseSt_cons_nl (run : ℕ) (rest : Str) :
    collapseSt run ('\n' :: rest) =
      if run < 2 then '\n' :: collapseSt (run + 1) rest
      else collapseSt (run + 1) rest := by
  simp [collapseSt]

theorem collapseSt_cons_ne (run : ℕ) (c : Char) (rest : Str) (hc : c ≠ '\n') :
    collapseSt run (c :: rest) = c :: collapseSt 0 rest := by
  simp [collapseSt, hc]

theorem mem_collapseSt : ∀ (s : Str) (run : ℕ) (c : Char),
    c ∈ collapseSt run s → c = '\n' ∨ c ∈ s := by
  intro s
  induction s with
  | nil => intro run c h; exact absurd h (by simp [collapseSt])
  | cons d rest ih =>
    intro run c h
    by_cases hd : d = '\n'
    · subst hd
      rw [collapseSt_cons_nl] at h
      by_cases hrun : run < 2
      · rw [if_pos hrun] at h
        rcases List.mem_cons.mp h with rfl | h2
        · exact Or.inl rfl
        · rcases ih (run + 1) c h2 with hnl | hm
          · exact Or.inl hnl
          · exact Or.inr (List.mem_cons_of_mem _ hm)
      · rw [if_neg hrun] at h
        rcases ih (run + 1) c h with hnl | hm
        · exact Or.inl hnl
        · exact Or.inr (List.mem_cons_of_mem _ hm)
    · rw [collapseSt_cons_ne _ _ _ hd] at h
      rcases List.mem_cons.mp h with rfl | h2
      · exact Or.inr (List.mem_cons_self _ _)
      · rcases ih 0 c h2 with hnl | hm
        · exact Or.inl hnl
        · exact Or.inr (List.mem_cons_of_mem _ hm)

/-- Witness for C9: a 3000-character body is extracted; the same shape
with a 10-character body is left alone. -/
theorem c9_code_extraction_witness :
    (2000 ≤ (List.replicate 3000 'c').length →
      _extract_code_to_files (([] : Str) ++ btk :: btk :: btk ::
          (([] : Str) ++ '\n' :: (List.replicate 3000 'c'
            ++ '\n' :: btk :: btk :: btk :: ([] : Str))))
        = (([] : Str) ++ placeholder ++ ([] : Str),
            [(_guess_ext ([] : Str), List.replicate 3000 'c')])) ∧
    ((List.replicate 3000 'c').length < 2000 →
      _extract_code_to_files (([] : Str) ++ btk :: btk :: btk ::
          (([] : Str) ++ '\n' :: (List.replicate 3000 'c'
            ++ '\n' :: btk :: btk :: btk :: ([] : Str))))
        = (([] : Str) ++ btk :: btk :: btk ::
            (([] : Str) ++ '\n' :: (List.replicate 3000 'c'
              ++ '\n' :: btk :: btk :: btk :: ([] : Str))), [])) ∧
    placeholder.length = 13 :=
  c9_code_extraction [] [] (List.replicate 3000 'c') []
    (by simp) (by simp)
    (fun c hc => by rw [List.eq_of_mem_replicate hc]; decide)
    (by simp)

theorem leadNL_nl (s : Str) : leadNL ('\n' :: s) = leadNL s + 1 := by
  simp [leadNL, List.takeWhile_cons, isNL]

theorem leadNL_ne (c : Char) (s : Str) (hc : c ≠ '\n') : leadNL (c :: s) = 0 := by
  simp [leadNL, List.takeWhile_cons, isNL, hc]

theorem takeWhile_len_le (p : Char → Bool) : ∀ l : Str,
    (l.takeWhile p).length ≤ l.length := by
  intro l
  induction l with
  | nil => simp
  | cons a l ih =>
    rw [List.takeWhile_cons]
    split_ifs
    · simp only [List.length_cons]
      omega
    · simp

theorem hasTriple_tail : ∀ (c : Char) (s : Str),
    hasTriple (c :: s) = false → hasTriple s = false := by
  intro c s h
  match s with
  | [] => rfl
  | [a] => rfl
  | a :: b :: rest =>
    have hh : hasTriple (c :: a :: b :: rest) =
        (if c = '\n' ∧ a = '\n' ∧ b = '\n' then true
         else hasTriple (a :: b :: rest)) := rfl
    rw [hh] at h
    split_ifs at h with hcond
    exact h

theorem hasTriple_cons_ne (c : Char) (hc : c ≠ '\n') :
    ∀ s : Str, hasTriple (c :: s) = hasTriple s := by
  intro s
  match s with
  | [] => rfl
  | [a] => rfl
  | a :: b :: rest =>
    show (if c = '\n' ∧ a = '\n' ∧ b = '\n' then true
      else hasTriple (a :: b :: rest)) = hasTriple (a :: b :: rest)
    rw [if_neg (fun hh => hc hh.1)]

theorem hasTriple_cons_nl (x : Str) (hld : leadNL x ≤ 1) (h : hasTriple x = false) :
    hasTriple ('\n' :: x) = false := by
  match x, hld, h with
  | [], _, _ => rfl
  | [a], _, _ => rfl
  | a :: b :: rest, hld, h =>
    show (if '\n' = '\n' ∧ a = '\n' ∧ b = '\n' then true
      else hasTriple (a :: b :: rest)) = false
    rw [if_neg]
    · exact h
    · rintro ⟨-, ha, hb⟩
      subst ha
      subst hb
      rw [leadNL_nl, leadNL_nl] at hld
      omega

theorem leadNL_le_of_no_triple : ∀ s : Str, hasTriple s = false → leadNL s ≤ 2 := by
  intro s h
  match s with
  | [] => simp [leadNL]
  | [a] =>
    have := takeWhile_len_le isNL [a]
    unfold leadNL
    simp at this
    omega
  | [a, b] =>
    have := takeWhile_len_le isNL [a, b]
    unfold leadNL
    simp at this
    omega
  | a :: b :: d :: rest =>
    by_cases ha : a = '\n'
    · by_cases hb : b = '\n'
      · by_cases hd : d = '\n'
        · exfalso
          have hh : hasTriple (a :: b :: d :: rest) =
              (if a = '\n' ∧ b = '\n' ∧ d = '\n' then true
               else hasTriple (b :: d :: rest)) := rfl
          rw [hh, if_pos ⟨ha, hb, hd⟩] at h
          simp at h
        · subst ha
          subst hb
          rw [leadNL_nl, leadNL_nl, leadNL_ne _ _ hd]
      · subst ha
        rw [leadNL_nl, leadNL_ne _ _ hb]
        omega
    · rw [leadNL_ne _ _ ha]
      omega

theorem collapseSt_no_triple : ∀ (s : Str) (run : ℕ),
    hasTriple (collapseSt run s) = false ∧ leadNL (collapseSt run s) ≤ 2 - run := by
  intro s
  induction s with
  | nil =>
    intro run
    constructor
    · rfl
    · show leadNL [] ≤ 2 - run
      simp [leadNL]
  | cons c rest ih =>
    intro run
    by_cases hc : c = '\n'
    · subst hc
      rw [collapseSt_cons_nl]
      by_cases hrun : run < 2
      · rw [if_pos hrun]
        obtain ⟨h1, h2⟩ := ih (run + 1)
        constructor
        · exact hasTriple_cons_nl _ (le_trans h2 (by omega)) h1
        · rw [leadNL_nl]
          omega
      · rw [if_neg hrun]
        obtain ⟨h1, h2⟩ := ih (run + 1)
        exact ⟨h1, le_trans h2 (by omega)⟩
    · rw [collapseSt_cons_ne _ _ _ hc]
      obtain ⟨h1, h2⟩ := ih 0
      constructor
      · rw [hasTriple_cons_ne c hc]
        exact h1
      · rw [leadNL_ne _ _ hc]
        omega

theorem collapseSt_no_op : ∀ (s : Str) (run : ℕ), hasTriple s = false →
    leadNL s ≤ 2 - run → collapseSt run s = s := by
  intro s
  induction s with
  | nil => intro run _ _; rfl
  | cons c rest ih =>
    intro run ht hld
    by_cases hc : c = '\n'
    · subst hc
      rw [leadNL_nl] at hld
      have hrun : run < 2 := by omega
      rw [collapseSt_cons_nl, if_pos hrun,
        ih (run + 1) (hasTriple_tail _ _ ht) (by omega)]
    · rw [collapseSt_cons_ne _ _ _ hc,
        ih 0 (hasTriple_tail _ _ ht)
          (by have := leadNL_le_of_no_triple rest (hasTriple_tail _ _ ht); omega)]

theorem collapseSt_lines : ∀ (s : Str) (run : ℕ),
    (splitNL (collapseSt run s)).Sublist (splitNL s) ∧
    (run ≤ 1 → (splitNL (collapseSt run s)).headI = (splitNL s).headI ∧
      (splitNL (collapseSt run s)).tail.Sublist (splitNL s).tail) := by
  intro s
  induction s with
  | nil =>
    intro run
    exact ⟨List.Sublist.refl _, fun _ => ⟨rfl, List.Sublist.refl _⟩⟩
  | cons c rest ih =>
    intro run
    by_cases hc : c = '\n'
    · subst hc
      rw [collapseSt_cons_nl]
      by_cases hrun : run < 2
      · rw [if_pos hrun]
        have h1 := ih (run + 1)
        constructor
        · rw [splitNL_nl, splitNL_nl]
          exact List.Sublist.cons₂ _ h1.1
        · intro _
          rw [splitNL_nl, splitNL_nl]
          exact ⟨rfl, h1.1⟩
      · rw [if_neg hrun]
        have h1 := ih (run + 1)
        constructor
        · rw [splitNL_nl]
          exact h1.1.cons _
        · intro hr1
          exact absurd hr1 (by omega)
    · rw [collapseSt_cons_ne _ _ _ hc]
      have h1 := (ih 0).2 (by omega)
      constructor
      · rw [splitNL_cons_ne _ _ hc, splitNL_cons_ne _ _ hc, h1.1]
        exact List.Sublist.cons₂ _ h1.2
      · intro _
        rw [splitNL_cons_ne _ _ hc, splitNL_cons_ne _ _ hc]
        constructor
        · simp only [List.headI_cons]
          rw [h1.1]
        · simp only [List.tail_cons]
          exact h1.2

theorem remUrlsF_no_url : ∀ (fuel : ℕ) (s : Str), s.length < fuel →
    hasUrl s = false → remUrlsF fuel s = s := by
  intro fuel
  induction fuel with
  | zero => intro s h; omega
  | succ n ih =>
    intro s hl hu
    match s with
    | [] => rfl
    | c :: rest =>
      have hu2 : (urlMatchAt (c :: rest)).isSome = false ∧ hasUrl rest = false := by
        simpa [hasUrl] using hu
      unfold remUrlsF
      cases hm : urlMatchAt (c :: rest) with
      | some after =>
        exfalso
        rw [hm] at hu2
        simp at hu2
      | none =>
        dsimp only
        rw [ih rest (by simp only [List.length_cons] at hl; omega) hu2.2]

theorem clean_chars (s : Str) :
    ∀ c ∈ _clean_text_for_plain_send s, c ≠ '\\' ∧ c ≠ '*' := by
  intro c hc
  unfold _clean_text_for_plain_send collapse at hc
  rcases mem_collapseSt _ _ _ hc with hnl | hm
  · subst hnl
    exact ⟨by decide, by decide⟩
  · unfold removeDashLines at hm
    rcases mem_joinNL _ _ hm with hnl | ⟨l, hl, hcl⟩
    · subst hnl
      exact ⟨by decide, by decide⟩
    · have hlm : l ∈ splitNL (remUrls (removeBackslashStar s)) :=
        List.mem_of_mem_filter hl
      have hcs : c ∈ remUrls (removeBackslashStar s) := mem_splitNL _ _ hlm _ hcl
      have hcs2 : c ∈ removeBackslashStar s := mem_remUrlsF _ _ _ hcs
      unfold removeBackslashStar at hcs2
      rw [List.mem_filter] at hcs2
      obtain ⟨hin, hstar⟩ := hcs2
      rw [List.mem_filter] at hin
      obtain ⟨-, hbs⟩ := hin
      constructor
      · simpa using hbs
      · simpa using hstar

theorem clean_fixed (u : Str)
    (h1 : ∀ c ∈ u, c ≠ '\\' ∧ c ≠ '*') (h2 : hasUrl u = false)
    (h3 : ∀ l ∈ splitNL u, keepLine l = true)
    (h4 : hasTriple u = false) (h5 : leadNL u ≤ 2) :
    _clean_text_for_plain_send u = u := by
  have hr1 : removeBackslashStar u = u := by
    unfold removeBackslashStar
    rw [List.filter_eq_self.mpr (fun a ha => decide_eq_true (h1 a ha).1),
      List.filter_eq_self.mpr (fun a ha => decide_eq_true (h1 a ha).2)]
  have hr2 : remUrls u = u := remUrlsF_no_url _ u (Nat.lt_succ_self _) h2
  have hr3 : removeDashLines u = u := by
    unfold removeDashLines
    rw [List.filter_eq_self.mpr h3, joinNL_splitNL]
  have hr4 : collapse u = u := collapseSt_no_op u 0 h4 (by simpa using h5)
  show collapse (removeDashLines (remUrls (removeBackslashStar u))) = u
  rw [hr1, hr2, hr3, hr4]

/-- C8 counterexample: the plain-text cleanup is not idempotent.  On
`((https://b)https://x)` the first pass removes the inner
`(https://b)` and thereby exposes `(https://x)`, which only the second
pass removes, so cleanup ∘ cleanup ≠ cleanup on this input. -/
theorem c8_clean_not_idempotent :
    _clean_text_for_plain_send (_clean_text_for_plain_send
        "((https://b)https://x)".toList) ≠
      _clean_text_for_plain_send "((https://b)https://x)".toList := by
  decide

/-- C8 amended: the plain-text cleanup is idempotent on every input
whose first cleanup result contains no parenthesised URL (removal can
expose a new `\((https?://[^)\s]+)\)` match, so the unconditional claim
fails; the remaining rules are idempotent unconditionally). -/
theorem c8_clean_idempotent_amended (s : Str)
    (h : hasUrl (_clean_text_for_plain_send s) = false) :
    _clean_text_for_plain_send (_clean_text_for_plain_send s)
      = _clean_text_for_plain_send s := by
  apply clean_fixed
  · exact clean_chars s
  · exact h
  · intro l hl
    have hsub :=
      (collapseSt_lines (removeDashLines (remUrls (removeBackslashStar s))) 0).1
    have hly : l ∈ splitNL (removeDashLines (remUrls (removeBackslashStar s))) :=
      hsub.subset hl
    by_cases hfl :
        ((splitNL (remUrls (removeBackslashStar s))).filter keepLine) = []
    · unfold removeDashLines at hly
      rw [hfl] at hly
      simp [joinNL, splitNL] at hly
      rw [hly]
      decide
    · have hnl : ∀ m ∈ (splitNL (remUrls (removeBackslashStar s))).filter keepLine,
          ∀ c ∈ m, c ≠ '\n' :=
        fun m hm => splitNL_no_nl _ m (List.mem_of_mem_filter hm)
      have heq := splitNL_joinNL _ hfl hnl
      unfold removeDashLines at hly
      rw [heq] at hly
      exact List.of_mem_filter hly
  · exact (collapseSt_no_triple (removeDashLines (remUrls (removeBackslashStar s))) 0).1
  · have hb :=
      (collapseSt_no_triple (removeDashLines (remUrls (removeBackslashStar s))) 0).2
    simpa using hb

/-- Witness for the amended C8 statement at a concrete input. -/
theorem c8_clean_idempotent_amended_witness :
    hasUrl (_clean_text_for_plain_send "a (https://x) b".toList) = false ∧
    _clean_text_for_plain_send (_clean_text_for_plain_send
        "a (https://x) b".toList)
      = _clean_text_for_plain_send "a (https://x) b".toList :=
  ⟨by decide, c8_clean_idempotent_amended _ (by decide)⟩

end Brainy
